import Mathlib

/-!
Verification of the dual-secret steganographic container of `twin-cipher`.

The embedding models `src/lib/steganography.ts` (capacity check, LSB
bit-plane codec, container serialisation/parsing, the big-endian integer
codec) together with the resolution protocol of the `Extract` component.
Pixel buffers are flat RGBA byte lists (`List Nat`, entries `< 256` as for a
`Uint8ClampedArray`); byte streams are `List Nat` (entries `< 256` as for a
`Uint8Array`).  JavaScript 32-bit bitwise operators (`>>`, `<<`, `|`, `&`,
`>>> 0`) are modelled exactly, including the `ToInt32` coercion and its sign
behaviour.
-/

namespace TwinCipher

/-- Error taxonomy of the core (§7 of the design): `CapacityExceeded` is the
`Image too small` throw of `embedDataInImage`, `InvalidHeader` the
`Invalid ... filename length` throw and `TruncatedData` the
`Unexpected end of data` throw of `extractDataFromImage`. -/
inductive StegoError where
  | CapacityExceeded
  | InvalidHeader
  | TruncatedData
deriving DecidableEq, Repr

deriving instance DecidableEq for Except

/-- JavaScript `ToUint32` of an integral number, as a natural number. -/
def toUint32Nat (x : Int) : Nat := (x % 4294967296).toNat

/-- JavaScript `ToInt32` of an integral number: reduce modulo `2^32` into
the signed range `[-2^31, 2^31)`. -/
def toInt32 (x : Int) : Int :=
  if x % 4294967296 < 2147483648 then x % 4294967296 else x % 4294967296 - 4294967296

/-- JavaScript `a >> b` (sign-propagating right shift on the `ToInt32`
image; the shift count is taken mod 32). -/
def jsShr (a : Int) (k : Nat) : Int := toInt32 a / 2 ^ (k % 32)

/-- JavaScript `a << b` (left shift of the `ToInt32` image, wrapped back
into 32-bit signed range). -/
def jsShl (a : Int) (k : Nat) : Int := toInt32 (toInt32 a * 2 ^ (k % 32))

/-- JavaScript `a & b` (bitwise AND of the 32-bit patterns, reinterpreted
as a signed 32-bit integer). -/
def jsAnd (a b : Int) : Int :=
  toInt32 ((Nat.land (toUint32Nat a) (toUint32Nat b) : Nat) : Int)

/-- JavaScript `a | b` (bitwise OR of the 32-bit patterns, reinterpreted
as a signed 32-bit integer). -/
def jsOr (a b : Int) : Int :=
  toInt32 ((Nat.lor (toUint32Nat a) (toUint32Nat b) : Nat) : Int)

/-- The descending loop of `intToBytes` (steganography.ts:190-196):
`for (let i = byteCount - 1; i >= 0; i--) bytes.push((num >> (i * 8)) & 0xff)`. -/
def intToBytesAux (num : Int) : Nat → List Int
  | 0 => []
  | i + 1 => jsAnd (jsShr num (i * 8)) 255 :: intToBytesAux num i

/-- `intToBytes` of steganography.ts:190-196: big-endian fixed-width
encoding of a number. -/
def intToBytes (num : Int) (byteCount : Nat) : List Int := intToBytesAux num byteCount

/-- `intToBytes` applied to a natural number, with its output stored into a
`Uint8Array` (the values are already in `[0, 255]`, so the store is just
`Int.toNat`). -/
def intToBytesU (num : Nat) (byteCount : Nat) : List Nat :=
  (intToBytes ((num : Nat) : Int) byteCount).map Int.toNat

/-- `bytesToInt` of steganography.ts:198-204:
`num = (num << 8) | bytes[i]` over the list, then `num >>> 0`. -/
def bytesToInt (bytes : List Nat) : Nat :=
  toUint32Nat (bytes.foldl (fun num b => jsOr (jsShl num 8) ((b : Nat) : Int)) 0)

/-! ### Basic facts about the JS 32-bit helpers -/

theorem toInt32_emod (x : Int) : toInt32 x % 4294967296 = x % 4294967296 := by
  unfold toInt32
  have h0 : (0:Int) < 4294967296 := by norm_num
  have h1 := Int.emod_nonneg x (by norm_num : (4294967296:Int) ≠ 0)
  have h2 := Int.emod_lt_of_pos x h0
  split
  · exact Int.emod_emod_of_dvd x dvd_rfl
  · omega

theorem toInt32_lt (x : Int) : toInt32 x < 2147483648 := by
  unfold toInt32
  have h1 := Int.emod_nonneg x (by norm_num : (4294967296:Int) ≠ 0)
  have h2 := Int.emod_lt_of_pos x (by norm_num : (0:Int) < 4294967296)
  split <;> omega

theorem toInt32_ge (x : Int) : -2147483648 ≤ toInt32 x := by
  unfold toInt32
  have h1 := Int.emod_nonneg x (by norm_num : (4294967296:Int) ≠ 0)
  have h2 := Int.emod_lt_of_pos x (by norm_num : (0:Int) < 4294967296)
  split <;> omega

theorem toInt32_of_small {x : Int} (h0 : 0 ≤ x) (h : x < 2147483648) :
    toInt32 x = x := by
  unfold toInt32
  rw [Int.emod_eq_of_lt h0 (by omega)]
  simp [h]

theorem toUint32Nat_eq (x : Int) : (toUint32Nat x : Int) = x % 4294967296 := by
  unfold toUint32Nat
  exact Int.toNat_of_nonneg (Int.emod_nonneg x (by norm_num))

theorem toUint32Nat_lt (x : Int) : toUint32Nat x < 4294967296 := by
  have h2 := Int.emod_lt_of_pos x (by norm_num : (0:Int) < 4294967296)
  have := toUint32Nat_eq x
  omega

/-- `x & 255` extracts the low byte: on the 32-bit pattern this is plain
`mod 256`, and because `256 ∣ 2^32` the wrap-around does not disturb it. -/
theorem jsAnd_255 (x : Int) : jsAnd x 255 = x % 256 := by
  unfold jsAnd
  have h255 : toUint32Nat 255 = 255 := by decide
  rw [h255]
  have hland : Nat.land (toUint32Nat x) 255 = toUint32Nat x % 256 := by
    have := Nat.and_pow_two_sub_one_eq_mod (toUint32Nat x) 8
    simpa using this
  rw [hland]
  have hlt : toUint32Nat x % 256 < 256 := Nat.mod_lt _ (by norm_num)
  rw [toInt32_of_small (by exact_mod_cast Nat.zero_le _)
    (by exact_mod_cast lt_of_lt_of_le hlt (by norm_num))]
  have hx := toUint32Nat_eq x
  have hcast : ((toUint32Nat x % 256 : Nat) : Int) = (toUint32Nat x : Int) % 256 := by
    push_cast; ring_nf
  rw [hcast, hx]
  exact Int.emod_emod_of_dvd x (by norm_num)

/-- `v >> k` for `0 ≤ v < 2^32` and `k ≤ 24`: modulo 256 the sign
correction of `ToInt32` (a multiple of `2^(32-k)`, hence of 256) vanishes,
leaving plain floor division. -/
theorem jsShr_mod256 (v : Int) (h0 : 0 ≤ v) (h : v < 4294967296) (k : Nat)
    (hk : k ≤ 24) : jsShr v k % 256 = v / 2 ^ k % 256 := by
  unfold jsShr
  have hk32 : k % 32 = k := Nat.mod_eq_of_lt (by omega)
  rw [hk32]
  unfold toInt32
  rw [Int.emod_eq_of_lt h0 h]
  split
  · rfl
  · have hpow : (2:Int) ^ (24 - k) * 256 * 2 ^ k = 4294967296 := by
      have h1 : (2:Int) ^ (24 - k) * 256 * 2 ^ k = 2 ^ ((24 - k) + 8 + k) := by
        rw [pow_add, pow_add]; norm_num
      rw [h1, show (24 - k) + 8 + k = 32 from by omega]; norm_num
    have hsplit : v - 4294967296 = v + (-(2 ^ (24 - k) * 256)) * 2 ^ k := by
      rw [neg_mul]; linarith
    rw [hsplit, Int.add_mul_ediv_right _ _ (by positivity : (2:Int) ^ k ≠ 0)]
    conv_lhs => rw [Int.add_emod]
    have : -(2 ^ (24 - k) * 256) % 256 = 0 := by
      rw [Int.neg_emod]
      simp [Int.mul_emod]
    rw [this, add_zero, Int.emod_emod_of_dvd _ (by norm_num)]

/-- One byte of `intToBytes`: `(num >> (i*8)) & 0xff = num / 2^(8i) % 256`
for numbers in `[0, 2^32)`. -/
theorem intToBytes_byte (v : Int) (h0 : 0 ≤ v) (h : v < 4294967296) (i : Nat)
    (hi : i ≤ 3) : jsAnd (jsShr v (i * 8)) 255 = v / 2 ^ (i * 8) % 256 := by
  rw [jsAnd_255, jsShr_mod256 v h0 h (i * 8) (by omega)]

theorem intToBytesAux_succ (num : Int) (i : Nat) :
    intToBytesAux num (i + 1) = jsAnd (jsShr num (i * 8)) 255 :: intToBytesAux num i := rfl

theorem intToBytesAux_four (num : Int) :
    intToBytesAux num 4 = [jsAnd (jsShr num (3 * 8)) 255, jsAnd (jsShr num (2 * 8)) 255,
      jsAnd (jsShr num (1 * 8)) 255, jsAnd (jsShr num (0 * 8)) 255] := rfl

theorem intToBytesAux_two (num : Int) :
    intToBytesAux num 2 = [jsAnd (jsShr num (1 * 8)) 255, jsAnd (jsShr num (0 * 8)) 255] := rfl

theorem intToBytesU_four (v : Nat) (h : v < 4294967296) :
    intToBytesU v 4 = [v / 2 ^ 24 % 256, v / 2 ^ 16 % 256, v / 2 ^ 8 % 256, v % 256] := by
  have hv0 : (0:Int) ≤ (v:Int) := Int.ofNat_nonneg v
  have hv : (v:Int) < 4294967296 := by exact_mod_cast h
  have hb : ∀ i : Nat, i ≤ 3 →
      Int.toNat (jsAnd (jsShr (v:Int) (i * 8)) 255) = v / 2 ^ (i * 8) % 256 := by
    intro i hi
    rw [intToBytes_byte (v:Int) hv0 hv i hi]
    have : ((v:Int) / 2 ^ (i * 8) % 256) = ((v / 2 ^ (i * 8) % 256 : Nat) : Int) := by
      push_cast; rfl
    rw [this, Int.toNat_ofNat]
  show (intToBytesAux (v:Int) 4).map Int.toNat = _
  rw [intToBytesAux_four]
  simp only [List.map_cons, List.map_nil]
  rw [hb 3 (by omega), hb 2 (by omega), hb 1 (by omega), hb 0 (by omega)]
  norm_num

theorem intToBytesU_two (v : Nat) (h : v < 65536) :
    intToBytesU v 2 = [v / 2 ^ 8 % 256, v % 256] := by
  have hv0 : (0:Int) ≤ (v:Int) := Int.ofNat_nonneg v
  have hv : (v:Int) < 4294967296 := by exact_mod_cast lt_trans h (by norm_num)
  have hb : ∀ i : Nat, i ≤ 3 →
      Int.toNat (jsAnd (jsShr (v:Int) (i * 8)) 255) = v / 2 ^ (i * 8) % 256 := by
    intro i hi
    rw [intToBytes_byte (v:Int) hv0 hv i hi]
    have : ((v:Int) / 2 ^ (i * 8) % 256) = ((v / 2 ^ (i * 8) % 256 : Nat) : Int) := by
      push_cast; rfl
    rw [this, Int.toNat_ofNat]
  show (intToBytesAux (v:Int) 2).map Int.toNat = _
  rw [intToBytesAux_two]
  simp only [List.map_cons, List.map_nil]
  rw [hb 1 (by omega), hb 0 (by omega)]
  norm_num

theorem intToBytesU_length (v n : Nat) : (intToBytesU v n).length = n := by
  show ((intToBytesAux (v:Int) n).map Int.toNat).length = n
  rw [List.length_map]
  induction n with
  | zero => rfl
  | succ k ih => rw [intToBytesAux_succ]; simpa using ih

theorem intToBytesU_lt (v n : Nat) : ∀ b ∈ intToBytesU v n, b < 256 := by
  intro b hb
  obtain ⟨x, hx, rfl⟩ := List.mem_map.mp hb
  have hmem : ∀ m : Nat, x ∈ intToBytesAux (v:Int) m → ∃ k, x = jsAnd (jsShr (v:Int) k) 255 := by
    intro m
    induction m with
    | zero =>
        intro hmm
        rw [show intToBytesAux ((v : Nat) : Int) 0 = [] from rfl] at hmm
        exact absurd hmm (List.not_mem_nil x)
    | succ j ih =>
        intro hmm
        rw [intToBytesAux_succ] at hmm
        rcases List.mem_cons.mp hmm with h1 | h2
        · exact ⟨j * 8, h1⟩
        · exact ih h2
  obtain ⟨k, hk⟩ := hmem n hx
  rw [hk, jsAnd_255]
  have h1 : jsShr (v:Int) k % 256 < 256 :=
    Int.emod_lt_of_pos _ (by norm_num)
  have h2 : 0 ≤ jsShr (v:Int) k % 256 :=
    Int.emod_nonneg _ (by norm_num)
  omega

/-! ### Bit-plane codec and container (`embedDataInImage` / `extractDataFromImage`) -/

/-- The alpha-forcing loop of `embedDataInImage` (steganography.ts:27-29):
`for (let i = 0; i < pixels.length; i += 4) pixels[i + 3] = 255`.
A store past the end of a `Uint8ClampedArray` is silently dropped, so an
incomplete trailing chunk is left unchanged. -/
def forceAlpha : List Nat → List Nat
  | r :: g :: b :: _a :: rest => r :: g :: b :: 255 :: forceAlpha rest
  | l => l

/-- `bit = (currentByte >> (7 - bitIndex)) & 1` (steganography.ts:66-67);
the bytes are `Uint8Array` entries, i.e. below 256, so the JS operators
agree with the `Nat` operators. -/
def lsbBit (data : List Nat) (byteIndex bitIndex : Nat) : Nat :=
  (data.getD byteIndex 0 >>> (7 - bitIndex)) &&& 1

/-- The `bitIndex++ / byteIndex++` bookkeeping of the write loop
(steganography.ts:71-75). -/
def bumpBit (byteIndex bitIndex : Nat) : Nat × Nat :=
  if bitIndex + 1 = 8 then (byteIndex + 1, 0) else (byteIndex, bitIndex + 1)

/-- Value written into one colour channel: unchanged if the byte stream is
already consumed (the `if (byteIndex >= totalData.length) break` guard),
else `(pixel & 0xfe) | bit` (steganography.ts:64-69). -/
def chanVal (data : List Nat) (st : Nat × Nat) (p : Nat) : Nat :=
  if data.length ≤ st.1 then p else (p &&& 254) ||| lsbBit data st.1 st.2

/-- State advance for one colour channel (no advance once the stream is
consumed, matching the `break`). -/
def chanSt (data : List Nat) (st : Nat × Nat) : Nat × Nat :=
  if data.length ≤ st.1 then st else bumpBit st.1 st.2

/-- The write loop of `embedDataInImage` (steganography.ts:59-77): raster
order over the pixels, channels 0,1,2 of each 4-byte RGBA chunk, carrying
the `(byteIndex, bitIndex)` cursor.  Exiting the loop early when the stream
is consumed is equivalent to the guard leaving every later channel
unchanged, since the cursor no longer advances. -/
def embedLoop (data : List Nat) : Nat × Nat → List Nat → List Nat
  | st, r :: g :: b :: a :: rest =>
      chanVal data st r ::
      chanVal data (chanSt data st) g ::
      chanVal data (chanSt data (chanSt data st)) b ::
      a ::
      embedLoop data (chanSt data (chanSt data (chanSt data st))) rest
  | _, l => l

/-- The `headerBytes` array of `embedDataInImage` (steganography.ts:37-44):
`[realNameLen(2), realName, realSize(4), decoyNameLen(2), decoyName,
decoySize(4)]`. -/
def headerBytes (realNameBytes realData decoyNameBytes decoyData : List Nat) : List Nat :=
  intToBytesU realNameBytes.length 2 ++ realNameBytes ++
  intToBytesU realData.length 4 ++
  intToBytesU decoyNameBytes.length 2 ++ decoyNameBytes ++
  intToBytesU decoyData.length 4

/-- The `totalData` array of `embedDataInImage` (steganography.ts:46-50):
header, then real payload, then decoy payload. -/
def serializeContainer (realNameBytes realData decoyNameBytes decoyData : List Nat) : List Nat :=
  headerBytes realNameBytes realData decoyNameBytes decoyData ++ realData ++ decoyData

/-- `embedDataInImage` (steganography.ts:1-90), on the decoded RGBA buffer.
The file names arrive as their UTF-8 byte sequences (the `TextEncoder`
output) and the payloads as their `Uint8Array` contents; the canvas
decode/re-encode steps are outside the core.  Note the source computes
`maxCapacity = Math.floor((pixels.length / 4) * 3)`. -/
def embedDataInImage (pixels realData decoyData realNameBytes decoyNameBytes : List Nat) :
    Except StegoError (List Nat) :=
  let pixels1 := forceAlpha pixels
  let totalData := serializeContainer realNameBytes realData decoyNameBytes decoyData
  let maxCapacity := pixels1.length / 4 * 3
  if maxCapacity < totalData.length then .error .CapacityExceeded
  else .ok (embedLoop totalData (0, 0) pixels1)

/-- The inner 8-bit loop of `extractBytes` (steganography.ts:117-134).
`pos` is the source's own quantity `byteIndex * 8 + bitIndex`;
`pixelIndex = Math.floor(pos / 3) * 4`, `channelIndex = pos % 3`. -/
def readByteAux (pixels : List Nat) (pos byte : Nat) : Nat → Except StegoError Nat
  | 0 => .ok byte
  | k + 1 =>
      if pixels.length ≤ pos / 3 * 4 then .error .TruncatedData
      else
        readByteAux pixels (pos + 1)
          ((byte <<< 1) ||| (pixels.getD (pos / 3 * 4 + pos % 3) 0 &&& 1)) k

/-- `extractBytes(count)` (steganography.ts:114-138) starting at bit
cursor `pos` (always a multiple of 8 when called). -/
def extractBytes (pixels : List Nat) (pos : Nat) : Nat → Except StegoError (List Nat)
  | 0 => .ok []
  | count + 1 => do
      let b ← readByteAux pixels pos 0 8
      let rest ← extractBytes pixels (pos + 8) count
      .ok (b :: rest)

/-- Result of `extractDataFromImage`: the two file names (UTF-8 bytes, the
`TextDecoder` step is outside the core) and the two payloads. -/
structure ExtractResult where
  realName : List Nat
  realData : List Nat
  decoyName : List Nat
  decoyData : List Nat
deriving DecidableEq, Repr

/-- `extractDataFromImage` (steganography.ts:92-178) on the decoded RGBA
buffer: sequential field reads with the two name-length validity checks.
The bit cursor after reading `k` bytes in total is `8 * k`, giving the
explicit positions below. -/
def extractDataFromImage (pixels : List Nat) : Except StegoError ExtractResult := do
  let realNameLenBytes ← extractBytes pixels 0 2
  if bytesToInt realNameLenBytes = 0 ∨ 2000 < bytesToInt realNameLenBytes then
    .error .InvalidHeader
  else do
    let realNameBytes ← extractBytes pixels 16 (bytesToInt realNameLenBytes)
    let realSizeBytes ← extractBytes pixels (16 + 8 * bytesToInt realNameLenBytes) 4
    let decoyNameLenBytes ← extractBytes pixels (48 + 8 * bytesToInt realNameLenBytes) 2
    if bytesToInt decoyNameLenBytes = 0 ∨ 2000 < bytesToInt decoyNameLenBytes then
      .error .InvalidHeader
    else do
      let decoyNameBytes ← extractBytes pixels (64 + 8 * bytesToInt realNameLenBytes)
        (bytesToInt decoyNameLenBytes)
      let decoySizeBytes ← extractBytes pixels
        (64 + 8 * bytesToInt realNameLenBytes + 8 * bytesToInt decoyNameLenBytes) 4
      let realData ← extractBytes pixels
        (96 + 8 * bytesToInt realNameLenBytes + 8 * bytesToInt decoyNameLenBytes)
        (bytesToInt realSizeBytes)
      let decoyData ← extractBytes pixels
        (96 + 8 * bytesToInt realNameLenBytes + 8 * bytesToInt decoyNameLenBytes +
          8 * bytesToInt realSizeBytes)
        (bytesToInt decoySizeBytes)
      .ok ⟨realNameBytes, realData, decoyNameBytes, decoyData⟩

/-- Least-significant bit the extractor reads at bit cursor `n` (without
the bounds check): channel `n % 3` of pixel `n / 3`. -/
def lsbAt (pixels : List Nat) (n : Nat) : Nat :=
  pixels.getD (n / 3 * 4 + n % 3) 0 &&& 1

/-- MSB-first numeric value of `k` consecutive extracted bits starting at
bit cursor `pos` (bounds-check-free reference reading). -/
def bitsVal (pixels : List Nat) (pos : Nat) : Nat → Nat
  | 0 => 0
  | k + 1 => 2 * bitsVal pixels pos k + lsbAt pixels (pos + k)

/-- Bounds-check-free reference version of `extractBytes`: the byte values
the extractor produces whenever its bounds checks pass. -/
def byteListAt (pixels : List Nat) (pos : Nat) : Nat → List Nat
  | 0 => []
  | count + 1 => bitsVal pixels pos 8 :: byteListAt pixels (pos + 8) count

/-- The pure big-endian value of a byte list (specification-side helper for
reasoning about `bytesToInt`). -/
def beVal (bytes : List Nat) : Nat := bytes.foldl (fun n b => n * 256 + b) 0

/-- `Int`-valued big-endian fold, starting from an arbitrary accumulator. -/
def beValAuxI (acc : Int) (bytes : List Nat) : Int :=
  bytes.foldl (fun n b => n * 256 + (b : Int)) acc

theorem beValAuxI_congr (bytes : List Nat) :
    ∀ (a a' : Int), a % 4294967296 = a' % 4294967296 →
      beValAuxI a bytes % 4294967296 = beValAuxI a' bytes % 4294967296 := by
  induction bytes with
  | nil => intro a a' h; exact h
  | cons b bs ih =>
      intro a a' h
      show beValAuxI (a * 256 + b) bs % _ = beValAuxI (a' * 256 + b) bs % _
      apply ih
      have : (a * 256 + b) % 4294967296 = (a' * 256 + b) % 4294967296 := by
        conv_lhs => rw [Int.add_emod, Int.mul_emod, h]
        conv_rhs => rw [Int.add_emod, Int.mul_emod]
      exact this

/-- One step of the `bytesToInt` loop agrees with exact arithmetic
`acc * 256 + b` modulo `2^32`. -/
theorem bytesToInt_step (acc : Int) (b : Nat) (hb : b < 256) :
    jsOr (jsShl acc 8) ((b : Nat) : Int) % 4294967296 = (acc * 256 + b) % 4294967296 := by
  have hshl : jsShl acc 8 % 4294967296 = acc * 256 % 4294967296 := by
    unfold jsShl
    rw [toInt32_emod]
    have h8 : (8 : Nat) % 32 = 8 := rfl
    rw [h8]
    have : (2:Int) ^ 8 = 256 := by norm_num
    rw [this]
    conv_lhs => rw [Int.mul_emod, toInt32_emod, ← Int.mul_emod]
  unfold jsOr
  rw [toInt32_emod]
  -- the shifted accumulator pattern has a zero low byte, so OR is addition
  have hu1 : (toUint32Nat (jsShl acc 8) : Int) = acc * 256 % 4294967296 := by
    rw [toUint32Nat_eq, hshl]
  have hu1mod : toUint32Nat (jsShl acc 8) % 256 = 0 := by
    have : (toUint32Nat (jsShl acc 8) : Int) % 256 = 0 := by
      rw [hu1, Int.emod_emod_of_dvd _ (by norm_num), Int.mul_emod_left]
    omega
  have hu2 : toUint32Nat ((b : Nat) : Int) = b := by
    unfold toUint32Nat
    rw [Int.emod_eq_of_lt (Int.ofNat_nonneg b) (by exact_mod_cast lt_trans hb (by norm_num))]
    exact Int.toNat_ofNat b
  rw [hu2]
  have hdecomp : toUint32Nat (jsShl acc 8) = 2 ^ 8 * (toUint32Nat (jsShl acc 8) / 256) := by
    have := Nat.div_add_mod (toUint32Nat (jsShl acc 8)) 256
    omega
  have hor : Nat.lor (toUint32Nat (jsShl acc 8)) b = toUint32Nat (jsShl acc 8) + b := by
    have h1 : Nat.lor (2 ^ 8 * (toUint32Nat (jsShl acc 8) / 256)) b =
        2 ^ 8 * (toUint32Nat (jsShl acc 8) / 256) ||| b := rfl
    conv_lhs => rw [hdecomp]
    rw [h1, ← Nat.mul_add_lt_is_or (by omega : b < 2 ^ 8)]
    omega
  rw [hor]
  push_cast
  rw [hu1]
  conv_lhs => rw [Int.add_emod, Int.emod_emod_of_dvd _ (dvd_refl _), ← Int.add_emod]

theorem bytesToInt_fold (bytes : List Nat) :
    ∀ acc : Int, (∀ b ∈ bytes, b < 256) →
      bytes.foldl (fun num b => jsOr (jsShl num 8) ((b : Nat) : Int)) acc % 4294967296 =
        beValAuxI acc bytes % 4294967296 := by
  induction bytes with
  | nil => intro acc _; rfl
  | cons b bs ih =>
      intro acc h
      have hb : b < 256 := h b (List.mem_cons_self b bs)
      rw [List.foldl_cons]
      have hbe : beValAuxI acc (b :: bs) = beValAuxI (acc * 256 + (b:Int)) bs := rfl
      rw [hbe, ih _ (fun x hx => h x (List.mem_cons_of_mem b hx))]
      exact beValAuxI_congr bs _ _ (bytesToInt_step acc b hb)

theorem beValAuxI_natCast (bytes : List Nat) :
    ∀ acc : Nat, beValAuxI (acc : Int) bytes = (bytes.foldl (fun n b => n * 256 + b) acc : Nat) := by
  induction bytes with
  | nil => intro acc; rfl
  | cons b bs ih =>
      intro acc
      show beValAuxI ((acc : Int) * 256 + b) bs = _
      have : ((acc : Int) * 256 + b) = ((acc * 256 + b : Nat) : Int) := by push_cast; ring
      rw [this, ih]
      rfl

theorem bytesToInt_eq_beVal (bytes : List Nat) (h : ∀ b ∈ bytes, b < 256)
    (hv : beVal bytes < 4294967296) : bytesToInt bytes = beVal bytes := by
  unfold bytesToInt
  have hfold := bytesToInt_fold bytes 0 h
  have hcast : beValAuxI (0 : Int) bytes = (beVal bytes : Int) := by
    have := beValAuxI_natCast bytes 0
    simpa [beVal] using this
  rw [hcast] at hfold
  have hbe : (beVal bytes : Int) % 4294967296 = (beVal bytes : Int) :=
    Int.emod_eq_of_lt (Int.ofNat_nonneg _) (by exact_mod_cast hv)
  rw [hbe] at hfold
  unfold toUint32Nat
  rw [hfold]
  exact Int.toNat_ofNat _

/-! ### Characterisation of the write loop -/

/-- Global channel number of buffer index `j` (for `j % 4 < 3`): channel
`j % 4` of pixel `j / 4`. -/
def chanPos (j : Nat) : Nat := j / 4 * 3 + j % 4

theorem chanPos_add_four (j : Nat) : chanPos (j + 4) = chanPos j + 3 := by
  unfold chanPos
  omega

theorem embedLoop_cons4 (data : List Nat) (st : Nat × Nat) (r g b a : Nat) (rest : List Nat) :
    embedLoop data st (r :: g :: b :: a :: rest) =
      chanVal data st r ::
      chanVal data (chanSt data st) g ::
      chanVal data (chanSt data (chanSt data st)) b ::
      a ::
      embedLoop data (chanSt data (chanSt data (chanSt data st))) rest := rfl

theorem chanVal_eq (data : List Nat) (st : Nat × Nat) (p : Nat) (hb : st.2 < 8) :
    chanVal data st p =
      if 8 * st.1 + st.2 < 8 * data.length then
        (p &&& 254) ||| lsbBit data st.1 st.2
      else p := by
  unfold chanVal
  split_ifs with h1 h2 h3
  · omega
  · rfl
  · rfl
  · omega

theorem chanSt_snd (data : List Nat) (st : Nat × Nat) (hb : st.2 < 8) :
    (chanSt data st).2 < 8 := by
  unfold chanSt bumpBit
  split_ifs with h1 h2
  · exact hb
  · show (0 : Nat) < 8
    decide
  · show st.2 + 1 < 8
    omega

theorem chanSt_m (data : List Nat) (st : Nat × Nat) (hb : st.2 < 8) :
    8 * (chanSt data st).1 + (chanSt data st).2 =
      if 8 * st.1 + st.2 < 8 * data.length then 8 * st.1 + st.2 + 1
      else 8 * st.1 + st.2 := by
  by_cases h1 : data.length ≤ st.1
  · have hs : chanSt data st = st := by
      unfold chanSt
      rw [if_pos h1]
    rw [hs, if_neg (by omega)]
  · by_cases h2 : st.2 + 1 = 8
    · have hs : chanSt data st = (st.1 + 1, 0) := by
        unfold chanSt bumpBit
        rw [if_neg h1, if_pos h2]
      rw [hs, if_pos (by omega)]
      show 8 * (st.1 + 1) + 0 = 8 * st.1 + st.2 + 1
      omega
    · have hs : chanSt data st = (st.1, st.2 + 1) := by
        unfold chanSt bumpBit
        rw [if_neg h1, if_neg h2]
      rw [hs, if_pos (by omega)]
      show 8 * st.1 + (st.2 + 1) = 8 * st.1 + st.2 + 1
      omega

theorem embedLoop_length (data : List Nat) :
    ∀ (pixels : List Nat) (st : Nat × Nat), (embedLoop data st pixels).length = pixels.length
  | [], _ => rfl
  | [_], _ => rfl
  | [_, _], _ => rfl
  | [_, _, _], _ => rfl
  | r :: g :: b :: a :: rest, st => by
      rw [embedLoop_cons4]
      simp only [List.length_cons]
      rw [embedLoop_length data rest _]

/-- Full characterisation of the write loop: starting at cursor
`m = 8 * byteIndex + bitIndex`, buffer index `j` (a colour channel, not
alpha) receives bit `m + chanPos j` of the stream iff that is still within
the stream, and every other entry is unchanged. -/
theorem embedLoop_getD (data : List Nat) :
    ∀ (pixels : List Nat) (st : Nat × Nat), st.2 < 8 → pixels.length % 4 = 0 →
      ∀ j, j < pixels.length →
        (embedLoop data st pixels).getD j 0 =
          if j % 4 = 3 then pixels.getD j 0
          else if 8 * st.1 + st.2 + chanPos j < 8 * data.length then
            (pixels.getD j 0 &&& 254) |||
              lsbBit data ((8 * st.1 + st.2 + chanPos j) / 8)
                ((8 * st.1 + st.2 + chanPos j) % 8)
          else pixels.getD j 0
  | [], _, _, _, _, hj => absurd hj (by simp)
  | [_], _, _, hmod, _, _ => absurd hmod (by simp)
  | [_, _], _, _, hmod, _, _ => absurd hmod (by simp)
  | [_, _, _], _, _, hmod, _, _ => absurd hmod (by simp)
  | r :: g :: b :: a :: rest, st, hb, hmod, j, hj => by
      have hmod' : rest.length % 4 = 0 := by
        simp only [List.length_cons] at hmod
        omega
      have hb1 := chanSt_snd data st hb
      have hb2 := chanSt_snd data (chanSt data st) hb1
      have hb3 := chanSt_snd data (chanSt data (chanSt data st)) hb2
      have hm1 := chanSt_m data st hb
      have hm2 := chanSt_m data (chanSt data st) hb1
      have hm3 := chanSt_m data (chanSt data (chanSt data st)) hb2
      rcases Nat.lt_or_ge j 4 with h4 | h4
      · interval_cases j
        · -- channel 0: cursor m
          show chanVal data st r = _
          rw [chanVal_eq data st r hb]
          rw [show ((r :: g :: b :: a :: rest).getD 0 0) = r from rfl]
          rw [show chanPos 0 = 0 from rfl]
          rw [show (0 : Nat) % 4 = 0 from rfl]
          simp only [Nat.add_zero]
          have e1 : (8 * st.1 + st.2) / 8 = st.1 := by omega
          have e2 : (8 * st.1 + st.2) % 8 = st.2 := by omega
          rw [e1, e2]
          split_ifs with h1 h2 h3 <;> first | rfl | contradiction
        · -- channel 1: cursor advanced once
          show chanVal data (chanSt data st) g = _
          rw [chanVal_eq data (chanSt data st) g hb1]
          rw [show ((r :: g :: b :: a :: rest).getD 1 0) = g from rfl]
          rw [show chanPos 1 = 1 from rfl]
          by_cases hlt : 8 * st.1 + st.2 + 1 < 8 * data.length
          · have hc : 8 * (chanSt data st).1 + (chanSt data st).2 = 8 * st.1 + st.2 + 1 := by
              rw [hm1]; split_ifs with h <;> omega
            have e1 : (8 * st.1 + st.2 + 1) / 8 = (chanSt data st).1 := by omega
            have e2 : (8 * st.1 + st.2 + 1) % 8 = (chanSt data st).2 := by omega
            rw [if_pos (by omega : 8 * (chanSt data st).1 + (chanSt data st).2 <
              8 * data.length)]
            rw [show (1 : Nat) % 4 = 1 from rfl]
            rw [if_neg (by omega : ¬(1 : Nat) = 3), if_pos hlt]
            rw [e1, e2]
          · have hc : ¬8 * (chanSt data st).1 + (chanSt data st).2 < 8 * data.length := by
              rw [hm1]; split_ifs with h <;> omega
            rw [if_neg hc]
            rw [show (1 : Nat) % 4 = 1 from rfl]
            rw [if_neg (by omega : ¬(1 : Nat) = 3), if_neg hlt]
        · -- channel 2: cursor advanced twice
          show chanVal data (chanSt data (chanSt data st)) b = _
          rw [chanVal_eq data (chanSt data (chanSt data st)) b hb2]
          rw [show ((r :: g :: b :: a :: rest).getD 2 0) = b from rfl]
          rw [show chanPos 2 = 2 from rfl]
          by_cases hlt : 8 * st.1 + st.2 + 2 < 8 * data.length
          · have hc : 8 * (chanSt data (chanSt data st)).1 + (chanSt data (chanSt data st)).2 =
                8 * st.1 + st.2 + 2 := by
              rw [hm2, hm1]
              split_ifs with h1 h2 <;> omega
            have e1 : (8 * st.1 + st.2 + 2) / 8 = (chanSt data (chanSt data st)).1 := by omega
            have e2 : (8 * st.1 + st.2 + 2) % 8 = (chanSt data (chanSt data st)).2 := by omega
            rw [if_pos (by omega : 8 * (chanSt data (chanSt data st)).1 +
              (chanSt data (chanSt data st)).2 < 8 * data.length)]
            rw [show (2 : Nat) % 4 = 2 from rfl]
            rw [if_neg (by omega : ¬(2 : Nat) = 3), if_pos hlt]
            rw [e1, e2]
          · have hc : ¬8 * (chanSt data (chanSt data st)).1 +
                (chanSt data (chanSt data st)).2 < 8 * data.length := by
              rw [hm2, hm1]
              split_ifs with h1 h2 <;> omega
            rw [if_neg hc]
            rw [show (2 : Nat) % 4 = 2 from rfl]
            rw [if_neg (by omega : ¬(2 : Nat) = 3), if_neg hlt]
        · -- alpha channel: untouched
          show a = _
          rw [if_pos (show (3 : Nat) % 4 = 3 from rfl)]
          rw [show ((r :: g :: b :: a :: rest).getD 3 0) = a from rfl]
      · -- deeper pixels: recurse with the advanced cursor
        obtain ⟨j', rfl⟩ : ∃ j', j = j' + 4 := ⟨j - 4, by omega⟩
        have hj' : j' < rest.length := by
          simp only [List.length_cons] at hj
          omega
        show (embedLoop data (chanSt data (chanSt data (chanSt data st))) rest).getD j' 0 = _
        rw [show ((r :: g :: b :: a :: rest).getD (j' + 4) 0) = rest.getD j' 0 from rfl]
        rw [embedLoop_getD data rest (chanSt data (chanSt data (chanSt data st))) hb3 hmod' j' hj']
        have hmod4 : (j' + 4) % 4 = j' % 4 := by omega
        rw [chanPos_add_four, hmod4]
        by_cases hmall : 8 * st.1 + st.2 + 2 < 8 * data.length
        · have hc : 8 * (chanSt data (chanSt data (chanSt data st))).1 +
              (chanSt data (chanSt data (chanSt data st))).2 = 8 * st.1 + st.2 + 3 := by
            rw [hm3, hm2, hm1]
            split_ifs with h1 h2 <;> omega
          rw [hc]
          have e : 8 * st.1 + st.2 + 3 + chanPos j' = 8 * st.1 + st.2 + (chanPos j' + 3) := by
            omega
          rw [e]
        · have hcge : 8 * data.length ≤ 8 * (chanSt data (chanSt data (chanSt data st))).1 +
              (chanSt data (chanSt data (chanSt data st))).2 := by
            rw [hm3, hm2, hm1]
            split_ifs with h1 h2 <;> omega
          rw [if_neg (by omega : ¬8 * (chanSt data (chanSt data (chanSt data st))).1 +
            (chanSt data (chanSt data (chanSt data st))).2 + chanPos j' < 8 * data.length)]
          rw [if_neg (by omega : ¬8 * st.1 + st.2 + (chanPos j' + 3) < 8 * data.length)]

/-! ### Characterisation of the read loops -/

theorem land_one_eq_mod (x : Nat) : x &&& 1 = x % 2 := by
  rw [Nat.and_comm]
  exact Nat.one_and_eq_mod_two x

theorem lsbAt_lt (pixels : List Nat) (n : Nat) : lsbAt pixels n < 2 := by
  unfold lsbAt
  rw [land_one_eq_mod]
  exact Nat.mod_lt _ (by norm_num)

/-- Reading back the least-significant bit of a channel that was just
written recovers exactly the written bit. -/
theorem land_write_one (p bit : Nat) (hb : bit < 2) :
    ((p &&& 254) ||| bit) &&& 1 = bit := by
  have h1 : ((p &&& 254) ||| bit) &&& 1 = (1 &&& (p &&& 254)) ||| (1 &&& bit) := by
    rw [Nat.and_comm]
    exact Nat.and_or_distrib_left 1 (p &&& 254) bit
  have h2 : (p &&& 254) &&& 1 = 0 := by
    rw [Nat.land_assoc]
    norm_num
  have h3 : 1 &&& (p &&& 254) = 0 := by rw [Nat.and_comm]; exact h2
  rw [h1, h3, Nat.zero_or, Nat.one_and_eq_mod_two]
  omega

theorem bitsVal_zero (pixels : List Nat) (pos : Nat) : bitsVal pixels pos 0 = 0 := rfl

theorem bitsVal_succ (pixels : List Nat) (pos k : Nat) :
    bitsVal pixels pos (k + 1) = 2 * bitsVal pixels pos k + lsbAt pixels (pos + k) := rfl

theorem bitsVal_front (pixels : List Nat) :
    ∀ (k pos : Nat), bitsVal pixels pos (k + 1) = lsbAt pixels pos * 2 ^ k + bitsVal pixels (pos + 1) k := by
  intro k
  induction k with
  | zero =>
      intro pos
      rw [bitsVal_succ, bitsVal_zero, bitsVal_zero]
      simp only [Nat.add_zero, pow_zero]
      omega
  | succ k ih =>
      intro pos
      rw [bitsVal_succ, ih pos, bitsVal_succ]
      have e : pos + (k + 1) = pos + 1 + k := by omega
      rw [e, pow_succ]
      ring

theorem shl1_or (acc v : Nat) (hv : v < 2) : (acc <<< 1) ||| v = 2 * acc + v := by
  have h1 : acc <<< 1 = 2 ^ 1 * acc := by rw [Nat.shiftLeft_eq]; ring
  rw [h1, ← Nat.mul_add_lt_is_or (show v < 2 ^ 1 by omega) acc]

theorem readByteAux_succ (pixels : List Nat) (pos byte k : Nat) :
    readByteAux pixels pos byte (k + 1) =
      if pixels.length ≤ pos / 3 * 4 then .error .TruncatedData
      else readByteAux pixels (pos + 1)
        ((byte <<< 1) ||| (pixels.getD (pos / 3 * 4 + pos % 3) 0 &&& 1)) k := rfl

/-- Full characterisation of the inner 8-bit read loop: with `4K` buffer
entries there are exactly `3K` readable bit positions, and within bounds the
loop accumulates the MSB-first bit value. -/
theorem readByteAux_eq (pixels : List Nat) (K : Nat) (hlen : pixels.length = 4 * K) :
    ∀ (k pos acc : Nat),
      readByteAux pixels pos acc k =
        if k = 0 ∨ pos + k ≤ 3 * K then .ok (acc * 2 ^ k + bitsVal pixels pos k)
        else .error .TruncatedData := by
  intro k
  induction k with
  | zero =>
      intro pos acc
      rw [if_pos (Or.inl rfl), bitsVal_zero]
      show Except.ok acc = Except.ok (acc * 1 + 0)
      norm_num
  | succ k ih =>
      intro pos acc
      rw [readByteAux_succ]
      by_cases hbound : pixels.length ≤ pos / 3 * 4
      · rw [if_pos hbound, if_neg]
        omega
      · rw [if_neg hbound, ih]
        have hpos : pos < 3 * K := by omega
        have hlsb : pixels.getD (pos / 3 * 4 + pos % 3) 0 &&& 1 = lsbAt pixels pos := rfl
        rw [hlsb, shl1_or acc (lsbAt pixels pos) (lsbAt_lt pixels pos)]
        by_cases hrest : k = 0 ∨ pos + 1 + k ≤ 3 * K
        · rw [if_pos hrest, if_pos (by omega)]
          rw [bitsVal_front pixels k pos, pow_succ]
          congr 1
          ring
        · rw [if_neg hrest, if_neg (by omega)]

theorem byteListAt_zero (pixels : List Nat) (pos : Nat) : byteListAt pixels pos 0 = [] := rfl

theorem byteListAt_succ (pixels : List Nat) (pos count : Nat) :
    byteListAt pixels pos (count + 1) =
      bitsVal pixels pos 8 :: byteListAt pixels (pos + 8) count := rfl

theorem exceptBind_ok {α β ε : Type} (x : α) (f : α → Except ε β) :
    Except.ok x >>= f = f x := rfl

theorem exceptBind_err {α β ε : Type} (e : ε) (f : α → Except ε β) :
    (Except.error e : Except ε α) >>= f = .error e := rfl

theorem extractBytes_succ (pixels : List Nat) (pos count : Nat) :
    extractBytes pixels pos (count + 1) =
      readByteAux pixels pos 0 8 >>= fun b =>
        extractBytes pixels (pos + 8) count >>= fun rest => .ok (b :: rest) := rfl

/-- Full characterisation of `extractBytes`: a `count`-byte read starting at
bit cursor `pos` succeeds iff it stays within the `3K` readable bits (a
0-byte read always succeeds), producing the reference byte values. -/
theorem extractBytes_eq (pixels : List Nat) (K : Nat) (hlen : pixels.length = 4 * K) :
    ∀ (count pos : Nat),
      extractBytes pixels pos count =
        if count = 0 ∨ pos + 8 * count ≤ 3 * K then .ok (byteListAt pixels pos count)
        else .error .TruncatedData := by
  intro count
  induction count with
  | zero =>
      intro pos
      rw [if_pos (Or.inl rfl), byteListAt_zero]
      rfl
  | succ count ih =>
      intro pos
      rw [extractBytes_succ, readByteAux_eq pixels K hlen 8 pos 0]
      by_cases hpos : pos + 8 ≤ 3 * K
      · rw [if_pos (Or.inr hpos), exceptBind_ok, ih]
        by_cases hrest : count = 0 ∨ pos + 8 + 8 * count ≤ 3 * K
        · rw [if_pos hrest, exceptBind_ok, if_pos (by omega), byteListAt_succ]
          norm_num
        · rw [if_neg hrest, exceptBind_err, if_neg (by omega)]
      · rw [if_neg (by omega), exceptBind_err, if_neg (by omega)]

/-! ### Write / read inversion -/

theorem getD_eq_getElem (l : List Nat) (n : Nat) (h : n < l.length) :
    l.getD n 0 = l[n] := by
  rw [List.getD_eq_getElem?_getD, List.getElem?_eq_getElem h]
  rfl

theorem lsbBit_lt (data : List Nat) (bi bj : Nat) : lsbBit data bi bj < 2 := by
  unfold lsbBit
  rw [land_one_eq_mod]
  exact Nat.mod_lt _ (by norm_num)

/-- Reading the LSB at bit cursor `n` of the written buffer recovers bit
`n` of the stream. -/
theorem lsbAt_embedLoop (data pixels : List Nat) (K : Nat) (hlen : pixels.length = 4 * K)
    (n : Nat) (hn : n < 8 * data.length) (hn2 : n < 3 * K) :
    lsbAt (embedLoop data (0, 0) pixels) n = lsbBit data (n / 8) (n % 8) := by
  have hmod : pixels.length % 4 = 0 := by omega
  have hj : n / 3 * 4 + n % 3 < pixels.length := by omega
  have hchan : chanPos (n / 3 * 4 + n % 3) = n := by
    unfold chanPos
    omega
  have hget := embedLoop_getD data pixels (0, 0) (by decide) hmod (n / 3 * 4 + n % 3) hj
  unfold lsbAt
  rw [hget, hchan]
  rw [if_neg (by omega : ¬(n / 3 * 4 + n % 3) % 4 = 3)]
  have hz : 8 * (0, 0).1 + (0, 0).2 + n = n := by
    show 8 * 0 + 0 + n = n
    omega
  rw [hz, if_pos hn]
  exact land_write_one _ _ (lsbBit_lt data (n / 8) (n % 8))

theorem bitsVal_eight (p : List Nat) (pos : Nat) :
    bitsVal p pos 8 =
      2 * (2 * (2 * (2 * (2 * (2 * (2 * (2 * 0 + lsbAt p (pos + 0)) + lsbAt p (pos + 1)) +
        lsbAt p (pos + 2)) + lsbAt p (pos + 3)) + lsbAt p (pos + 4)) + lsbAt p (pos + 5)) +
        lsbAt p (pos + 6)) + lsbAt p (pos + 7) := rfl

/-- Reassembling eight MSB-first bits of a byte below 256 gives the byte
back. -/
theorem byte_of_bits (B : Nat) (hB : B < 256) :
    2 * (2 * (2 * (2 * (2 * (2 * (2 * (2 * 0 + (B >>> 7 &&& 1)) + (B >>> 6 &&& 1)) +
      (B >>> 5 &&& 1)) + (B >>> 4 &&& 1)) + (B >>> 3 &&& 1)) + (B >>> 2 &&& 1)) +
      (B >>> 1 &&& 1)) + (B >>> 0 &&& 1) = B := by
  simp only [Nat.shiftRight_eq_div_pow, land_one_eq_mod]
  norm_num
  omega

/-- One full byte read back from the written buffer is the corresponding
stream byte. -/
theorem bitsVal_embedLoop (data pixels : List Nat) (K : Nat) (hlen : pixels.length = 4 * K)
    (hdata : ∀ b ∈ data, b < 256) (hcap : 8 * data.length ≤ 3 * K)
    (j : Nat) (hj : j < data.length) :
    bitsVal (embedLoop data (0, 0) pixels) (8 * j) 8 = data.getD j 0 := by
  have hbit : ∀ i : Nat, i < 8 →
      lsbAt (embedLoop data (0, 0) pixels) (8 * j + i) = (data.getD j 0 >>> (7 - i)) &&& 1 := by
    intro i hi
    rw [lsbAt_embedLoop data pixels K hlen (8 * j + i) (by omega) (by omega)]
    unfold lsbBit
    have e1 : (8 * j + i) / 8 = j := by omega
    have e2 : (8 * j + i) % 8 = i := by omega
    rw [e1, e2]
  rw [bitsVal_eight]
  rw [hbit 0 (by omega), hbit 1 (by omega), hbit 2 (by omega), hbit 3 (by omega),
    hbit 4 (by omega), hbit 5 (by omega), hbit 6 (by omega), hbit 7 (by omega)]
  have hB : data.getD j 0 < 256 := by
    rw [getD_eq_getElem data j hj]
    exact hdata _ (List.getElem_mem hj)
  have := byte_of_bits (data.getD j 0) hB
  convert this using 9

/-- The reference byte values read back from the written buffer are exactly
the corresponding segment of the stream. -/
theorem byteListAt_embedLoop (data pixels : List Nat) (K : Nat) (hlen : pixels.length = 4 * K)
    (hdata : ∀ b ∈ data, b < 256) (hcap : 8 * data.length ≤ 3 * K) :
    ∀ (c j : Nat), j + c ≤ data.length →
      byteListAt (embedLoop data (0, 0) pixels) (8 * j) c = (data.drop j).take c := by
  intro c
  induction c with
  | zero =>
      intro j _
      rw [byteListAt_zero, List.take_zero]
  | succ c ih =>
      intro j hjc
      rw [byteListAt_succ]
      have hj : j < data.length := by omega
      rw [bitsVal_embedLoop data pixels K hlen hdata hcap j hj]
      have e : 8 * j + 8 = 8 * (j + 1) := by omega
      rw [e, ih (j + 1) (by omega)]
      rw [List.drop_eq_getElem_cons hj, getD_eq_getElem data j hj]
      rfl

/-! ### Alpha handling and embed-level facts -/

theorem forceAlpha_cons4 (r g b a : Nat) (rest : List Nat) :
    forceAlpha (r :: g :: b :: a :: rest) = r :: g :: b :: 255 :: forceAlpha rest := rfl

theorem forceAlpha_length : ∀ l : List Nat, (forceAlpha l).length = l.length
  | [] => rfl
  | [_] => rfl
  | [_, _] => rfl
  | [_, _, _] => rfl
  | r :: g :: b :: a :: rest => by
      rw [forceAlpha_cons4]
      simp only [List.length_cons]
      rw [forceAlpha_length rest]

theorem forceAlpha_getD : ∀ (l : List Nat) (j : Nat), j < l.length →
    (forceAlpha l).getD j 0 = if j % 4 = 3 then 255 else l.getD j 0
  | [], j, hj => absurd hj (by simp)
  | [x], j, hj => by
      have h1 : j < 1 := by simpa using hj
      interval_cases j
      rfl
  | [x, y], j, hj => by
      have h1 : j < 2 := by simpa using hj
      interval_cases j <;> rfl
  | [x, y, z], j, hj => by
      have h1 : j < 3 := by simpa using hj
      interval_cases j <;> rfl
  | r :: g :: b :: a :: rest, j, hj => by
      rcases Nat.lt_or_ge j 4 with h4 | h4
      · interval_cases j <;> rfl
      · obtain ⟨j', rfl⟩ : ∃ j', j = j' + 4 := ⟨j - 4, by omega⟩
        have hj' : j' < rest.length := by
          simp only [List.length_cons] at hj
          omega
        show (forceAlpha rest).getD j' 0 = _
        rw [forceAlpha_getD rest j' hj']
        have e : (j' + 4) % 4 = j' % 4 := by omega
        rw [e]
        by_cases h : j' % 4 = 3
        · rw [if_pos h, if_pos h]
        · rw [if_neg h, if_neg h]
          rfl

theorem embedLoop_alpha (data : List Nat) : ∀ (l : List Nat) (st : Nat × Nat) (q : Nat),
    4 * q + 3 < l.length → (embedLoop data st l).getD (4 * q + 3) 0 = l.getD (4 * q + 3) 0
  | [], _, _, hq => absurd hq (by simp)
  | [_], _, q, hq => by simp only [List.length_cons, List.length_nil] at hq; omega
  | [_, _], _, q, hq => by simp only [List.length_cons, List.length_nil] at hq; omega
  | [_, _, _], _, q, hq => by simp only [List.length_cons, List.length_nil] at hq; omega
  | r :: g :: b :: a :: rest, st, q, hq => by
      match q with
      | 0 => rfl
      | q' + 1 =>
          have e : 4 * (q' + 1) + 3 = (4 * q' + 3) + 4 := by omega
          have hq' : 4 * q' + 3 < rest.length := by
            simp only [List.length_cons] at hq
            omega
          have lhs : (embedLoop data st (r :: g :: b :: a :: rest)).getD ((4 * q' + 3) + 4) 0 =
              (embedLoop data (chanSt data (chanSt data (chanSt data st))) rest).getD
                (4 * q' + 3) 0 := rfl
          have rhs : ((r :: g :: b :: a :: rest).getD ((4 * q' + 3) + 4) 0) =
              rest.getD (4 * q' + 3) 0 := rfl
          rw [e, lhs, rhs]
          exact embedLoop_alpha data rest (chanSt data (chanSt data (chanSt data st))) q' hq'

theorem forceAlpha_alpha : ∀ (l : List Nat) (q : Nat),
    4 * q + 3 < l.length → (forceAlpha l).getD (4 * q + 3) 0 = 255 := by
  intro l q hq
  rw [forceAlpha_getD l (4 * q + 3) hq, if_pos (by omega)]

theorem serializeContainer_length (rn r dn d : List Nat) :
    (serializeContainer rn r dn d).length = 12 + rn.length + dn.length + r.length + d.length := by
  unfold serializeContainer headerBytes
  simp only [List.length_append, intToBytesU_length]
  omega

theorem serializeContainer_lt (rn r dn d : List Nat)
    (hrn : ∀ b ∈ rn, b < 256) (hr : ∀ b ∈ r, b < 256)
    (hdn : ∀ b ∈ dn, b < 256) (hd : ∀ b ∈ d, b < 256) :
    ∀ b ∈ serializeContainer rn r dn d, b < 256 := by
  intro b hb
  unfold serializeContainer headerBytes at hb
  simp only [List.mem_append] at hb
  rcases hb with ((((((h | h) | h) | h) | h) | h) | h) | h
  · exact intToBytesU_lt _ _ b h
  · exact hrn b h
  · exact intToBytesU_lt _ _ b h
  · exact intToBytesU_lt _ _ b h
  · exact hdn b h
  · exact intToBytesU_lt _ _ b h
  · exact hr b h
  · exact hd b h

theorem embedDataInImage_def (pixels realData decoyData rn dn : List Nat) :
    embedDataInImage pixels realData decoyData rn dn =
      if (forceAlpha pixels).length / 4 * 3 <
          (serializeContainer rn realData dn decoyData).length
      then .error .CapacityExceeded
      else .ok (embedLoop (serializeContainer rn realData dn decoyData) (0, 0)
        (forceAlpha pixels)) := rfl

theorem bytesToInt_intToBytesU_two (v : Nat) (h : v < 65536) :
    bytesToInt (intToBytesU v 2) = v := by
  rw [intToBytesU_two v h]
  have hval : beVal [v / 2 ^ 8 % 256, v % 256] = v := by
    simp only [beVal, List.foldl_cons, List.foldl_nil]
    omega
  rw [bytesToInt_eq_beVal _ (by intro b hb; simp at hb; rcases hb with h1 | h1 <;> omega)
    (by rw [hval]; omega)]
  exact hval

theorem bytesToInt_intToBytesU_four (v : Nat) (h : v < 4294967296) :
    bytesToInt (intToBytesU v 4) = v := by
  rw [intToBytesU_four v h]
  have hval : beVal [v / 2 ^ 24 % 256, v / 2 ^ 16 % 256, v / 2 ^ 8 % 256, v % 256] = v := by
    simp only [beVal, List.foldl_cons, List.foldl_nil]
    have e24 : (2:Nat) ^ 24 = 16777216 := by norm_num
    have e16 : (2:Nat) ^ 16 = 65536 := by norm_num
    have e8 : (2:Nat) ^ 8 = 256 := by norm_num
    rw [e24, e16, e8]
    omega
  rw [bytesToInt_eq_beVal _
    (by intro b hb; simp at hb; rcases hb with h1 | h1 | h1 | h1 <;> omega)
    (by rw [hval]; omega)]
  exact hval

/-! ### Parsing back an embedded container -/

theorem serializeContainer_assoc (rn cR dn cD : List Nat) :
    serializeContainer rn cR dn cD =
      intToBytesU rn.length 2 ++ (rn ++ (intToBytesU cR.length 4 ++
      (intToBytesU dn.length 2 ++ (dn ++ (intToBytesU cD.length 4 ++ (cR ++ cD)))))) := by
  show (intToBytesU rn.length 2 ++ rn ++ intToBytesU cR.length 4 ++
    intToBytesU dn.length 2 ++ dn ++ intToBytesU cD.length 4) ++ cR ++ cD = _
  simp only [List.append_assoc]

theorem drop_take_seg (PRE SEG REST : List Nat) (j c : Nat)
    (hj : PRE.length = j) (hc : SEG.length = c) :
    ((PRE ++ (SEG ++ REST)).drop j).take c = SEG := by
  subst hj
  subst hc
  rw [List.drop_left, List.take_left]

/-- Extracting from a buffer into which a well-formed container was written
recovers all four fields exactly. -/
theorem extract_embedLoop (rn cR dn cD pixels : List Nat) (K : Nat)
    (hlen : pixels.length = 4 * K)
    (hrn1 : 1 ≤ rn.length) (hrn2 : rn.length ≤ 2000)
    (hdn1 : 1 ≤ dn.length) (hdn2 : dn.length ≤ 2000)
    (hrnB : ∀ b ∈ rn, b < 256) (hdnB : ∀ b ∈ dn, b < 256)
    (hcRB : ∀ b ∈ cR, b < 256) (hcDB : ∀ b ∈ cD, b < 256)
    (hcR32 : cR.length < 4294967296) (hcD32 : cD.length < 4294967296)
    (hcap : 8 * (12 + rn.length + dn.length + cR.length + cD.length) ≤ 3 * K) :
    extractDataFromImage (embedLoop (serializeContainer rn cR dn cD) (0, 0) pixels) =
      .ok ⟨rn, cR, dn, cD⟩ := by
  have hds : ∀ b ∈ serializeContainer rn cR dn cD, b < 256 :=
    serializeContainer_lt rn cR dn cD hrnB hcRB hdnB hcDB
  have htl := serializeContainer_length rn cR dn cD
  have hcap' : 8 * (serializeContainer rn cR dn cD).length ≤ 3 * K := by
    rw [htl]
    exact hcap
  have hbl := byteListAt_embedLoop (serializeContainer rn cR dn cD) pixels K hlen hds hcap'
  have hout : (embedLoop (serializeContainer rn cR dn cD) (0, 0) pixels).length = 4 * K := by
    rw [embedLoop_length]
    exact hlen
  have hex := extractBytes_eq _ K hout
  set out := embedLoop (serializeContainer rn cR dn cD) (0, 0) pixels with hout_def
  have hRA := serializeContainer_assoc rn cR dn cD
  -- successive drops of the container at the field boundaries
  have hd2 : (serializeContainer rn cR dn cD).drop 2 =
      rn ++ (intToBytesU cR.length 4 ++ (intToBytesU dn.length 2 ++ (dn ++
      (intToBytesU cD.length 4 ++ (cR ++ cD))))) := by
    rw [hRA]
    exact List.drop_left' (intToBytesU_length _ _)
  have hd2L : (serializeContainer rn cR dn cD).drop (2 + rn.length) =
      intToBytesU cR.length 4 ++ (intToBytesU dn.length 2 ++ (dn ++
      (intToBytesU cD.length 4 ++ (cR ++ cD)))) := by
    rw [← List.drop_drop rn.length 2, hd2]
    exact List.drop_left rn _
  have hd6 : (serializeContainer rn cR dn cD).drop (6 + rn.length) =
      intToBytesU dn.length 2 ++ (dn ++ (intToBytesU cD.length 4 ++ (cR ++ cD))) := by
    rw [show 6 + rn.length = 2 + rn.length + 4 from by omega]
    rw [← List.drop_drop 4 (2 + rn.length), hd2L]
    exact List.drop_left' (intToBytesU_length _ _)
  have hd8 : (serializeContainer rn cR dn cD).drop (8 + rn.length) =
      dn ++ (intToBytesU cD.length 4 ++ (cR ++ cD)) := by
    rw [show 8 + rn.length = 6 + rn.length + 2 from by omega]
    rw [← List.drop_drop 2 (6 + rn.length), hd6]
    exact List.drop_left' (intToBytesU_length _ _)
  have hd8L : (serializeContainer rn cR dn cD).drop (8 + rn.length + dn.length) =
      intToBytesU cD.length 4 ++ (cR ++ cD) := by
    rw [← List.drop_drop dn.length (8 + rn.length), hd8]
    exact List.drop_left dn _
  have hd12 : (serializeContainer rn cR dn cD).drop (12 + rn.length + dn.length) =
      cR ++ cD := by
    rw [show 12 + rn.length + dn.length = 8 + rn.length + dn.length + 4 from by omega]
    rw [← List.drop_drop 4 (8 + rn.length + dn.length), hd8L]
    exact List.drop_left' (intToBytesU_length _ _)
  have hd12R : (serializeContainer rn cR dn cD).drop (12 + rn.length + dn.length + cR.length) =
      cD := by
    rw [← List.drop_drop cR.length (12 + rn.length + dn.length), hd12]
    exact List.drop_left cR cD
  -- the eight field reads
  have hsegA1 : byteListAt out 0 2 = intToBytesU rn.length 2 := by
    have h := hbl 2 0 (by omega)
    simp only [Nat.mul_zero, List.drop_zero] at h
    rw [h, hRA]
    exact List.take_left' (intToBytesU_length _ _)
  have hsegRn : byteListAt out 16 rn.length = rn := by
    have h := hbl rn.length 2 (by omega)
    rw [show (16 : Nat) = 8 * 2 from rfl, h, hd2]
    exact List.take_left rn _
  have hsegA2 : byteListAt out (16 + 8 * rn.length) 4 = intToBytesU cR.length 4 := by
    have h := hbl 4 (2 + rn.length) (by omega)
    rw [show 16 + 8 * rn.length = 8 * (2 + rn.length) from by omega, h, hd2L]
    exact List.take_left' (intToBytesU_length _ _)
  have hsegA3 : byteListAt out (48 + 8 * rn.length) 2 = intToBytesU dn.length 2 := by
    have h := hbl 2 (6 + rn.length) (by omega)
    rw [show 48 + 8 * rn.length = 8 * (6 + rn.length) from by omega, h, hd6]
    exact List.take_left' (intToBytesU_length _ _)
  have hsegDn : byteListAt out (64 + 8 * rn.length) dn.length = dn := by
    have h := hbl dn.length (8 + rn.length) (by omega)
    rw [show 64 + 8 * rn.length = 8 * (8 + rn.length) from by omega, h, hd8]
    exact List.take_left dn _
  have hsegA4 : byteListAt out (64 + 8 * rn.length + 8 * dn.length) 4 =
      intToBytesU cD.length 4 := by
    have h := hbl 4 (8 + rn.length + dn.length) (by omega)
    rw [show 64 + 8 * rn.length + 8 * dn.length = 8 * (8 + rn.length + dn.length) from by
      omega, h, hd8L]
    exact List.take_left' (intToBytesU_length _ _)
  have hsegCR : byteListAt out (96 + 8 * rn.length + 8 * dn.length) cR.length = cR := by
    have h := hbl cR.length (12 + rn.length + dn.length) (by omega)
    rw [show 96 + 8 * rn.length + 8 * dn.length = 8 * (12 + rn.length + dn.length) from by
      omega, h, hd12]
    exact List.take_left cR cD
  have hsegCD : byteListAt out (96 + 8 * rn.length + 8 * dn.length + 8 * cR.length)
      cD.length = cD := by
    have h := hbl cD.length (12 + rn.length + dn.length + cR.length) (by omega)
    rw [show 96 + 8 * rn.length + 8 * dn.length + 8 * cR.length =
      8 * (12 + rn.length + dn.length + cR.length) from by omega, h, hd12R]
    exact List.take_of_length_le (by omega)
  unfold extractDataFromImage
  rw [hex 2 0, if_pos (Or.inr (by omega))]
  rw [exceptBind_ok]
  rw [hsegA1, bytesToInt_intToBytesU_two rn.length (by omega)]
  rw [if_neg (by omega : ¬(rn.length = 0 ∨ 2000 < rn.length))]
  rw [hex rn.length 16, if_pos (Or.inr (by omega))]
  rw [exceptBind_ok]
  rw [hsegRn]
  rw [hex 4 (16 + 8 * rn.length), if_pos (Or.inr (by omega))]
  rw [exceptBind_ok]
  rw [hsegA2, bytesToInt_intToBytesU_four cR.length hcR32]
  rw [hex 2 (48 + 8 * rn.length), if_pos (Or.inr (by omega))]
  rw [exceptBind_ok]
  rw [hsegA3, bytesToInt_intToBytesU_two dn.length (by omega)]
  rw [if_neg (by omega : ¬(dn.length = 0 ∨ 2000 < dn.length))]
  rw [hex dn.length (64 + 8 * rn.length), if_pos (Or.inr (by omega))]
  rw [exceptBind_ok]
  rw [hsegDn]
  rw [hex 4 (64 + 8 * rn.length + 8 * dn.length), if_pos (Or.inr (by omega))]
  rw [exceptBind_ok]
  rw [hsegA4, bytesToInt_intToBytesU_four cD.length hcD32]
  rw [hex cR.length (96 + 8 * rn.length + 8 * dn.length), if_pos (Or.inr (by omega))]
  rw [exceptBind_ok]
  rw [hsegCR]
  rw [hex cD.length (96 + 8 * rn.length + 8 * dn.length + 8 * cR.length),
    if_pos (Or.inr (by omega))]
  rw [exceptBind_ok]
  rw [hsegCD]

/-! ### Cryptographic envelope (spec-modelled) and resolution protocol -/

/-- Failure of one authenticated decryption attempt (§7). -/
inductive CryptoError where
  | AuthenticationFailure
deriving DecidableEq, Repr

/-- 4-byte length field used by the envelope model below. -/
def lenBytes (l : List Nat) : List Nat := intToBytesU l.length 4

/-- Modelled from the spec: the key-binding part of a sealed envelope.
`encryptData` / `decryptData` (`src/lib/crypto.ts`) are not under `src/`;
§4.2 specifies `sealData(plaintext, password)` as authenticated encryption
under a key derived from `(password, salt)` with a fresh IV, and `open` as
its inverse, failing deterministically (`AuthenticationFailure`) for any
non-matching password.  We model that functional contract concretely: a
ciphertext records which `(password, salt, iv)` sealed it, length-prefixed
so that distinct triples give distinguishable records. -/
def sealMeta (password salt iv : List Nat) : List Nat :=
  lenBytes password ++ password ++ lenBytes salt ++ salt ++ lenBytes iv ++ iv

/-- Modelled from the spec: `encryptData(plaintext, password)` with the
randomly drawn `salt`/`iv` made explicit inputs (§9 suggests injecting the
random source).  The ciphertext determines its plaintext exactly. -/
def sealData (plaintext password salt iv : List Nat) : List Nat :=
  sealMeta password salt iv ++ plaintext

/-- Modelled from the spec: `decryptData(ciphertext, password, salt, iv)` —
authenticated-decryption succeeds exactly when `(password, salt, iv)` match
the sealing triple, returning the original plaintext, and otherwise fails
with the single undifferentiated `AuthenticationFailure`. -/
def sealOpen (ciphertext password salt iv : List Nat) : Except CryptoError (List Nat) :=
  if ciphertext.take (sealMeta password salt iv).length = sealMeta password salt iv then
    .ok (ciphertext.drop (sealMeta password salt iv).length)
  else .error .AuthenticationFailure

/-- The salt/IV metadata row fetched from the external store
(`real_salt, real_iv, duress_salt, duress_iv`). -/
structure StegoMetadata where
  realSalt : List Nat
  realIv : List Nat
  duressSalt : List Nat
  duressIv : List Nat
deriving DecidableEq, Repr

/-- Terminal outcomes of the resolution protocol (§4.5). -/
inductive ResolveOutcome where
  | real (name data : List Nat)
  | decoy (name data : List Nat)
  | invalidPassword
deriving DecidableEq, Repr

/-- The resolution protocol of `handleExtract` (Extract component, steps
3-5): try the real ciphertext with the real salt/IV; only on failure try
the duress pair; if both fail, the single `Invalid password` outcome. -/
def resolveProtocol (realName realCipher decoyName decoyCipher : List Nat)
    (meta : StegoMetadata) (password : List Nat) : ResolveOutcome :=
  match sealOpen realCipher password meta.realSalt meta.realIv with
  | .ok pt => .real realName pt
  | .error _ =>
    match sealOpen decoyCipher password meta.duressSalt meta.duressIv with
    | .ok pt => .decoy decoyName pt
    | .error _ => .invalidPassword

theorem sealMeta_length (pw s iv : List Nat) :
    (sealMeta pw s iv).length = 12 + pw.length + s.length + iv.length := by
  unfold sealMeta lenBytes
  simp only [List.length_append, intToBytesU_length]
  omega

theorem sealData_lt (pt pw s iv : List Nat)
    (hpt : ∀ b ∈ pt, b < 256) (hpw : ∀ b ∈ pw, b < 256)
    (hs : ∀ b ∈ s, b < 256) (hiv : ∀ b ∈ iv, b < 256) :
    ∀ b ∈ sealData pt pw s iv, b < 256 := by
  intro b hb
  unfold sealData sealMeta lenBytes at hb
  simp only [List.mem_append] at hb
  rcases hb with (((((h | h) | h) | h) | h) | h) | h
  · exact intToBytesU_lt _ _ b h
  · exact hpw b h
  · exact intToBytesU_lt _ _ b h
  · exact hs b h
  · exact intToBytesU_lt _ _ b h
  · exact hiv b h
  · exact hpt b h

/-- Opening with the sealing password, salt and IV recovers the
plaintext. -/
theorem sealOpen_sealData (pt pw s iv : List Nat) :
    sealOpen (sealData pt pw s iv) pw s iv = .ok pt := by
  unfold sealOpen sealData
  rw [if_pos (List.take_left _ _), List.drop_left]

/-- Opening with any other password fails, whatever salt and IV are
supplied (lengths below `2^32`, as for any real byte array). -/
theorem sealOpen_wrong_password (pt pw s iv pw' s' iv' : List Nat)
    (hne : pw' ≠ pw) (hlen : pw.length < 4294967296) (hlen' : pw'.length < 4294967296) :
    sealOpen (sealData pt pw s iv) pw' s' iv' = .error .AuthenticationFailure := by
  unfold sealOpen
  rw [if_neg]
  intro heq
  have hassoc : sealData pt pw s iv =
      (lenBytes pw ++ pw) ++ (lenBytes s ++ s ++ lenBytes iv ++ iv ++ pt) := by
    unfold sealData sealMeta
    simp only [List.append_assoc]
  have hassoc' : sealMeta pw' s' iv' =
      (lenBytes pw' ++ pw') ++ (lenBytes s' ++ s' ++ lenBytes iv' ++ iv') := by
    unfold sealMeta
    simp only [List.append_assoc]
  have hlen4 : (lenBytes pw).length = 4 := intToBytesU_length _ _
  have hlen4' : (lenBytes pw').length = 4 := intToBytesU_length _ _
  -- first compare the two 4-byte length fields
  have htake4 : (sealData pt pw s iv).take 4 = lenBytes pw := by
    rw [hassoc, List.append_assoc]
    exact List.take_left' hlen4
  have htake4' : (sealMeta pw' s' iv').take 4 = lenBytes pw' := by
    rw [hassoc', List.append_assoc]
    exact List.take_left' hlen4'
  have hmlen : 4 ≤ (sealMeta pw' s' iv').length := by
    rw [sealMeta_length]
    omega
  have hfield : lenBytes pw = lenBytes pw' := by
    have h1 : ((sealData pt pw s iv).take (sealMeta pw' s' iv').length).take 4 =
        (sealMeta pw' s' iv').take 4 := by rw [heq]
    rw [List.take_take, Nat.min_eq_left hmlen] at h1
    rw [htake4, htake4'] at h1
    exact h1
  have hlenEq : pw.length = pw'.length := by
    have h1 : bytesToInt (lenBytes pw) = bytesToInt (lenBytes pw') := by rw [hfield]
    unfold lenBytes at h1
    rw [bytesToInt_intToBytesU_four _ hlen, bytesToInt_intToBytesU_four _ hlen'] at h1
    exact h1
  -- then compare the password fields themselves
  have htakePw : (sealData pt pw s iv).take (4 + pw.length) = lenBytes pw ++ pw := by
    rw [hassoc]
    exact List.take_left' (by rw [List.length_append, hlen4])
  have htakePw' : (sealMeta pw' s' iv').take (4 + pw'.length) = lenBytes pw' ++ pw' := by
    rw [hassoc']
    exact List.take_left' (by rw [List.length_append, hlen4'])
  have hmlen2 : 4 + pw'.length ≤ (sealMeta pw' s' iv').length := by
    rw [sealMeta_length]
    omega
  have hcmp : lenBytes pw ++ pw = lenBytes pw' ++ pw' := by
    have h1 : ((sealData pt pw s iv).take (sealMeta pw' s' iv').length).take (4 + pw'.length) =
        (sealMeta pw' s' iv').take (4 + pw'.length) := by rw [heq]
    rw [List.take_take, Nat.min_eq_left hmlen2] at h1
    rw [htakePw', ← hlenEq, htakePw] at h1
    exact h1
  have := (List.append_inj hcmp (by rw [hlen4, hlen4'])).2
  exact hne this.symm

theorem resolveProtocol_real (rn cR dn cD : List Nat) (meta : StegoMetadata)
    (pw pt : List Nat) (h : sealOpen cR pw meta.realSalt meta.realIv = .ok pt) :
    resolveProtocol rn cR dn cD meta pw = .real rn pt := by
  unfold resolveProtocol
  rw [h]

theorem resolveProtocol_decoy (rn cR dn cD : List Nat) (meta : StegoMetadata)
    (pw pt : List Nat) (e : CryptoError)
    (h1 : sealOpen cR pw meta.realSalt meta.realIv = .error e)
    (h2 : sealOpen cD pw meta.duressSalt meta.duressIv = .ok pt) :
    resolveProtocol rn cR dn cD meta pw = .decoy dn pt := by
  unfold resolveProtocol
  rw [h1, h2]

theorem resolveProtocol_invalid (rn cR dn cD : List Nat) (meta : StegoMetadata)
    (pw : List Nat) (e e' : CryptoError)
    (h1 : sealOpen cR pw meta.realSalt meta.realIv = .error e)
    (h2 : sealOpen cD pw meta.duressSalt meta.duressIv = .error e') :
    resolveProtocol rn cR dn cD meta pw = .invalidPassword := by
  unfold resolveProtocol
  rw [h1, h2]

/-- **C7**: the resolution protocol tries the real ciphertext with the real
salt/IV first and returns role `real` on success; only on failure does it
try the decoy ciphertext with the decoy salt/IV, returning role `decoy`;
if both attempts fail it returns the single undifferentiated
`invalidPassword`, and no other outcome exists. -/
theorem claim7_resolution_protocol (rn cR dn cD : List Nat) (meta : StegoMetadata)
    (pw : List Nat) :
    (∀ pt, sealOpen cR pw meta.realSalt meta.realIv = .ok pt →
      resolveProtocol rn cR dn cD meta pw = .real rn pt) ∧
    (∀ e pt, sealOpen cR pw meta.realSalt meta.realIv = .error e →
      sealOpen cD pw meta.duressSalt meta.duressIv = .ok pt →
      resolveProtocol rn cR dn cD meta pw = .decoy dn pt) ∧
    (∀ e e', sealOpen cR pw meta.realSalt meta.realIv = .error e →
      sealOpen cD pw meta.duressSalt meta.duressIv = .error e' →
      resolveProtocol rn cR dn cD meta pw = .invalidPassword) ∧
    ((∃ pt, resolveProtocol rn cR dn cD meta pw = .real rn pt) ∨
     (∃ pt, resolveProtocol rn cR dn cD meta pw = .decoy dn pt) ∨
     resolveProtocol rn cR dn cD meta pw = .invalidPassword) := by
  refine ⟨?_, ?_, ?_, ?_⟩
  · intro pt h
    unfold resolveProtocol
    rw [h]
  · intro e pt h1 h2
    unfold resolveProtocol
    rw [h1, h2]
  · intro e e' h1 h2
    unfold resolveProtocol
    rw [h1, h2]
  · unfold resolveProtocol
    cases h1 : sealOpen cR pw meta.realSalt meta.realIv with
    | ok pt => exact Or.inl ⟨pt, rfl⟩
    | error e =>
        cases h2 : sealOpen cD pw meta.duressSalt meta.duressIv with
        | ok pt => exact Or.inr (Or.inl ⟨pt, rfl⟩)
        | error e' => exact Or.inr (Or.inr rfl)

theorem claim7_witness :
    resolveProtocol [114] (sealData [1, 2] [5] [8] [9]) [100] (sealData [3] [6] [10] [11])
      (StegoMetadata.mk [8] [9] [10] [11]) [5] = .real [114] [1, 2] ∧
    resolveProtocol [114] (sealData [1, 2] [5] [8] [9]) [100] (sealData [3] [6] [10] [11])
      (StegoMetadata.mk [8] [9] [10] [11]) [6] = .decoy [100] [3] ∧
    resolveProtocol [114] (sealData [1, 2] [5] [8] [9]) [100] (sealData [3] [6] [10] [11])
      (StegoMetadata.mk [8] [9] [10] [11]) [7] = .invalidPassword := by
  refine ⟨?_, ?_, ?_⟩
  · exact (claim7_resolution_protocol [114] _ [100] _ _ [5]).1 [1, 2] (by decide)
  · exact (claim7_resolution_protocol [114] _ [100] _ _ [6]).2.1
      CryptoError.AuthenticationFailure [3] (by decide) (by decide)
  · exact (claim7_resolution_protocol [114] _ [100] _ _ [7]).2.2.1
      CryptoError.AuthenticationFailure CryptoError.AuthenticationFailure
      (by decide) (by decide)

/-- JavaScript call semantics of
`embedDataInImage(coverImage, encReal, encDecoy, secretFile.name, decoyFile.name, imageId)`
(the `handleEmbed` caller): the callee declares five parameters, so the
sixth argument `imageId` is silently discarded. -/
def embedDataInImageCall6 (pixels realData decoyData realNameBytes decoyNameBytes : List Nat)
    (_imageId : List Nat) : Except StegoError (List Nat) :=
  embedDataInImage pixels realData decoyData realNameBytes decoyNameBytes

/-! ### Claim theorems -/

set_option maxRecDepth 8000 in
/-- **C1** (code bug): `embedDataInImage` computes
`maxCapacity = (pixels.length / 4) * 3` — the number of usable *bits*, not
bytes — so a 38-byte container is accepted on a 10×10 image whose true byte
capacity is `floor(10*10*3/8) = 37`, instead of being rejected with
`CapacityExceeded`. -/
theorem claim1_capacity_check_uses_bits :
    (embedDataInImage (List.replicate 400 0) (List.replicate 20 7) (List.replicate 4 9)
      [97] [98]).isOk = true ∧
    (serializeContainer [97] (List.replicate 20 7) [98] (List.replicate 4 9)).length = 38 ∧
    10 * 10 * 3 / 8 = 37 := by
  refine ⟨by decide, by decide, by decide⟩

/-- **C2** (code bug): the container layout has no identifier field —
`embedDataInImage` declares five parameters, so the `imageId` its caller
passes as a sixth argument never influences the produced image, and
`extractDataFromImage` returns only the two files. -/
theorem claim2_containerId_not_embedded
    (pixels realData decoyData rn dn id1 id2 : List Nat) :
    embedDataInImageCall6 pixels realData decoyData rn dn id1 =
      embedDataInImageCall6 pixels realData decoyData rn dn id2 := rfl

/-- **C4**: the bit-plane read is the exact inverse of the write — reading
back `data.length` bytes from the buffer produced by writing `data`
recovers `data` bit for bit, in the same raster/channel/bit order. -/
theorem claim4_read_inverts_write (pixels data : List Nat) (K : Nat)
    (hlen : pixels.length = 4 * K) (hdata : ∀ b ∈ data, b < 256)
    (hcap : 8 * data.length ≤ 3 * K) :
    extractBytes (embedLoop data (0, 0) pixels) 0 data.length = .ok data := by
  have hout : (embedLoop data (0, 0) pixels).length = 4 * K := by
    rw [embedLoop_length]
    exact hlen
  rw [extractBytes_eq _ K hout data.length 0]
  rw [if_pos (Or.inr (by omega))]
  have hseg := byteListAt_embedLoop data pixels K hlen hdata hcap data.length 0 (by omega)
  simp only [Nat.mul_zero, List.drop_zero, List.take_length] at hseg
  rw [hseg]

theorem claim4_witness :
    extractBytes (embedLoop [202] (0, 0) (List.replicate 12 0)) 0 1 = .ok [202] := by
  have h := claim4_read_inverts_write (List.replicate 12 0) [202] 3 rfl (by decide) (by decide)
  exact h

/-- **C5**: the bit-plane write visits pixels in raster order and channels
R, G, B within each pixel (alpha skipped); channel `c` of pixel `q` receives
bit `3q + c` of the stream, MSB-first within each byte, via
`(channel & 0xFE) | bit`; placement stops with the last byte and every
other entry — alpha always, channels past the stream — is unmodified. -/
theorem claim5_write_characterisation (data pixels : List Nat)
    (hmod : pixels.length % 4 = 0) :
    (embedLoop data (0, 0) pixels).length = pixels.length ∧
    (∀ q c, c < 3 → 4 * q + c < pixels.length →
      (embedLoop data (0, 0) pixels).getD (4 * q + c) 0 =
        if 3 * q + c < 8 * data.length then
          (pixels.getD (4 * q + c) 0 &&& 254) |||
            ((data.getD ((3 * q + c) / 8) 0 >>> (7 - (3 * q + c) % 8)) &&& 1)
        else pixels.getD (4 * q + c) 0) ∧
    (∀ q, 4 * q + 3 < pixels.length →
      (embedLoop data (0, 0) pixels).getD (4 * q + 3) 0 = pixels.getD (4 * q + 3) 0) := by
  refine ⟨embedLoop_length data pixels (0, 0), ?_, ?_⟩
  · intro q c hc hqc
    have hget := embedLoop_getD data pixels (0, 0) (by decide) hmod (4 * q + c) hqc
    rw [hget]
    have hch : chanPos (4 * q + c) = 3 * q + c := by
      unfold chanPos
      omega
    have hz : 8 * ((0, 0) : Nat × Nat).1 + ((0, 0) : Nat × Nat).2 + chanPos (4 * q + c) =
        3 * q + c := by
      rw [hch]
      show 8 * 0 + 0 + (3 * q + c) = 3 * q + c
      omega
    rw [hz, if_neg (by omega : ¬(4 * q + c) % 4 = 3)]
    rfl
  · intro q hq
    exact embedLoop_alpha data pixels (0, 0) q hq

theorem claim5_witness :
    (embedLoop [171] (0, 0) (List.replicate 8 7)).getD 0 0 = 7 ∧
    (embedLoop [171] (0, 0) (List.replicate 8 7)).getD 3 0 = 7 := by
  have h := claim5_write_characterisation [171] (List.replicate 8 7) (by decide)
  constructor
  · have h2 := h.2.1 0 0 (by decide) (by decide)
    rw [h2]
    decide
  · have h3 := h.2.2 0 (by decide)
    rw [h3]
    decide

/-- **C8**: after any successful embed the output buffer is fully opaque —
every pixel's alpha channel equals 255 regardless of the cover's original
transparency. -/
theorem claim8_alpha_forced (pixels realData decoyData rn dn out : List Nat)
    (h : embedDataInImage pixels realData decoyData rn dn = .ok out)
    (q : Nat) (hq : 4 * q + 3 < out.length) : out.getD (4 * q + 3) 0 = 255 := by
  rw [embedDataInImage_def] at h
  by_cases hc : (forceAlpha pixels).length / 4 * 3 <
      (serializeContainer rn realData dn decoyData).length
  · rw [if_pos hc] at h
    exact absurd h (by simp)
  · rw [if_neg hc] at h
    injection h with h'
    subst h'
    have hq1 : 4 * q + 3 < (forceAlpha pixels).length := by
      rw [embedLoop_length] at hq
      exact hq
    rw [embedLoop_alpha _ _ _ q hq1]
    have hq2 : 4 * q + 3 < pixels.length := by
      rw [forceAlpha_length] at hq1
      exact hq1
    exact forceAlpha_alpha pixels q hq2

theorem claim8_witness :
    (embedLoop (serializeContainer [97] [] [98] []) (0, 0)
      (forceAlpha (List.replicate 20 0))).getD 3 0 = 255 := by
  exact claim8_alpha_forced (List.replicate 20 0) [] [] [97] [98] _ rfl 0 (by decide)

/-- **C9**: the multi-byte integer codec is big-endian and round-trips: for
widths 2 and 4 and values below `2^16` / `2^32`, `intToBytes` emits exactly
that many bytes most-significant first and `bytesToInt` recovers the
value. -/
theorem claim9_bigEndian_roundtrip (v2 v4 : Nat) (h2 : v2 < 2 ^ 16) (h4 : v4 < 2 ^ 32) :
    (intToBytesU v2 2 = [v2 / 2 ^ 8 % 256, v2 % 256] ∧
      bytesToInt (intToBytesU v2 2) = v2) ∧
    (intToBytesU v4 4 =
        [v4 / 2 ^ 24 % 256, v4 / 2 ^ 16 % 256, v4 / 2 ^ 8 % 256, v4 % 256] ∧
      bytesToInt (intToBytesU v4 4) = v4) := by
  have h2' : v2 < 65536 := by
    have : (2 : Nat) ^ 16 = 65536 := by norm_num
    omega
  have h4' : v4 < 4294967296 := by
    have : (2 : Nat) ^ 32 = 4294967296 := by norm_num
    omega
  exact ⟨⟨intToBytesU_two v2 h2', bytesToInt_intToBytesU_two v2 h2'⟩,
    ⟨intToBytesU_four v4 h4', bytesToInt_intToBytesU_four v4 h4'⟩⟩

theorem claim9_witness :
    bytesToInt (intToBytesU 43981 2) = 43981 ∧
    bytesToInt (intToBytesU 3735928559 4) = 3735928559 := by
  exact ⟨(claim9_bigEndian_roundtrip 43981 3735928559 (by norm_num) (by norm_num)).1.2,
    (claim9_bigEndian_roundtrip 43981 3735928559 (by norm_num) (by norm_num)).2.2⟩

set_option maxRecDepth 8000 in
/-- **C10**: embedding enforces no name-length invariant — an empty decoy
file name embeds successfully, producing a container whose decoy
name-length field is 0, which extraction then rejects as `InvalidHeader`,
breaking the round trip. -/
theorem claim10_empty_name_roundtrip_fails :
    (embedDataInImage (List.replicate 176 0) [1] [2] [97] []).isOk = true ∧
    ((embedDataInImage (List.replicate 176 0) [1] [2] [97] []) >>= extractDataFromImage) =
      .error .InvalidHeader ∧
    intToBytesU (([] : List Nat)).length 2 = [0, 0] := by
  refine ⟨by decide, by decide, by decide⟩

/-- **C3** (amended: both file names' UTF-8 encodings must be nonempty and
at most 2000 bytes — the original claim fails for other names, see the
counterexample): for a cover image with enough capacity and two secrets
with distinct passwords, extraction of the embedded image recovers both
names and ciphertexts exactly, and the resolution protocol returns role
`real` with the real plaintext under the real password and role `decoy`
with the decoy plaintext under the duress password.  The cryptographic
envelope is spec-modelled (`sealData` / `sealOpen`). -/
theorem claim3_roundtrip_and_resolution
    (pixels rn dn ptR ptD pwR pwD saltR ivR saltD ivD : List Nat) (K : Nat)
    (hlen : pixels.length = 4 * K)
    (hrn1 : 1 ≤ rn.length) (hrn2 : rn.length ≤ 2000)
    (hdn1 : 1 ≤ dn.length) (hdn2 : dn.length ≤ 2000)
    (hB : ∀ b ∈ rn ++ dn ++ ptR ++ ptD ++ pwR ++ pwD ++ saltR ++ ivR ++ saltD ++ ivD, b < 256)
    (hpw : pwR ≠ pwD)
    (hpwR32 : pwR.length < 4294967296) (hpwD32 : pwD.length < 4294967296)
    (hcR32 : (sealData ptR pwR saltR ivR).length < 4294967296)
    (hcD32 : (sealData ptD pwD saltD ivD).length < 4294967296)
    (hcap : 8 * (12 + rn.length + dn.length + (sealData ptR pwR saltR ivR).length +
      (sealData ptD pwD saltD ivD).length) ≤ 3 * K) :
    (embedDataInImage pixels (sealData ptR pwR saltR ivR) (sealData ptD pwD saltD ivD) rn dn
        >>= extractDataFromImage) =
      .ok ⟨rn, sealData ptR pwR saltR ivR, dn, sealData ptD pwD saltD ivD⟩ ∧
    resolveProtocol rn (sealData ptR pwR saltR ivR) dn (sealData ptD pwD saltD ivD)
      ⟨saltR, ivR, saltD, ivD⟩ pwR = .real rn ptR ∧
    resolveProtocol rn (sealData ptR pwR saltR ivR) dn (sealData ptD pwD saltD ivD)
      ⟨saltR, ivR, saltD, ivD⟩ pwD = .decoy dn ptD := by
  have hrnB : ∀ b ∈ rn, b < 256 := fun b hb => hB b (by simp [hb])
  have hdnB : ∀ b ∈ dn, b < 256 := fun b hb => hB b (by simp [hb])
  have hptRB : ∀ b ∈ ptR, b < 256 := fun b hb => hB b (by simp [hb])
  have hptDB : ∀ b ∈ ptD, b < 256 := fun b hb => hB b (by simp [hb])
  have hpwRB : ∀ b ∈ pwR, b < 256 := fun b hb => hB b (by simp [hb])
  have hpwDB : ∀ b ∈ pwD, b < 256 := fun b hb => hB b (by simp [hb])
  have hsRB : ∀ b ∈ saltR, b < 256 := fun b hb => hB b (by simp [hb])
  have hivRB : ∀ b ∈ ivR, b < 256 := fun b hb => hB b (by simp [hb])
  have hsDB : ∀ b ∈ saltD, b < 256 := fun b hb => hB b (by simp [hb])
  have hivDB : ∀ b ∈ ivD, b < 256 := fun b hb => hB b (by simp [hb])
  have hcRB := sealData_lt ptR pwR saltR ivR hptRB hpwRB hsRB hivRB
  have hcDB := sealData_lt ptD pwD saltD ivD hptDB hpwDB hsDB hivDB
  have hfl : (forceAlpha pixels).length = 4 * K := by
    rw [forceAlpha_length]
    exact hlen
  have hsl := serializeContainer_length rn (sealData ptR pwR saltR ivR) dn
    (sealData ptD pwD saltD ivD)
  have hemb : embedDataInImage pixels (sealData ptR pwR saltR ivR)
      (sealData ptD pwD saltD ivD) rn dn =
      .ok (embedLoop (serializeContainer rn (sealData ptR pwR saltR ivR) dn
        (sealData ptD pwD saltD ivD)) (0, 0) (forceAlpha pixels)) := by
    rw [embedDataInImage_def, if_neg (by rw [hfl, hsl]; omega)]
  refine ⟨?_, ?_, ?_⟩
  · rw [hemb, exceptBind_ok]
    exact extract_embedLoop rn (sealData ptR pwR saltR ivR) dn (sealData ptD pwD saltD ivD)
      (forceAlpha pixels) K hfl hrn1 hrn2 hdn1 hdn2 hrnB hdnB hcRB hcDB hcR32 hcD32 hcap
  · exact resolveProtocol_real rn _ dn _ ⟨saltR, ivR, saltD, ivD⟩ pwR ptR
      (sealOpen_sealData ptR pwR saltR ivR)
  · exact resolveProtocol_decoy rn _ dn _ ⟨saltR, ivR, saltD, ivD⟩ pwD ptD
      .AuthenticationFailure
      (sealOpen_wrong_password ptR pwR saltR ivR pwD saltR ivR (Ne.symm hpw) hpwR32 hpwD32)
      (sealOpen_sealData ptD pwD saltD ivD)

set_option maxRecDepth 20000 in
theorem claim3_witness :
    (embedDataInImage (List.replicate 504 0) (sealData [1, 2] [5] [8] [9])
        (sealData [3] [6] [10] [11]) [114] [100] >>= extractDataFromImage) =
      .ok ⟨[114], sealData [1, 2] [5] [8] [9], [100], sealData [3] [6] [10] [11]⟩ ∧
    resolveProtocol [114] (sealData [1, 2] [5] [8] [9]) [100] (sealData [3] [6] [10] [11])
      ⟨[8], [9], [10], [11]⟩ [5] = .real [114] [1, 2] ∧
    resolveProtocol [114] (sealData [1, 2] [5] [8] [9]) [100] (sealData [3] [6] [10] [11])
      ⟨[8], [9], [10], [11]⟩ [6] = .decoy [100] [3] := by
  exact claim3_roundtrip_and_resolution (List.replicate 504 0) [114] [100] [1, 2] [3]
    [5] [6] [8] [9] [10] [11] 126 rfl (by decide) (by decide) (by decide) (by decide)
    (by decide) (by decide) (by decide) (by decide) (by decide) (by decide) (by decide)

set_option maxRecDepth 20000 in
/-- Counterexample to **C3** as literally stated: with an empty real file
name the capacity hypothesis holds (container of 46 bytes on a cover of
spec capacity `3*123/8 = 46`) and the passwords are distinct, yet
extraction rejects the embedded image as `InvalidHeader` instead of
recovering the secrets. -/
theorem claim3_counterexample :
    (embedDataInImage (List.replicate 492 0) (sealData [1, 2] [5] [8] [9])
        (sealData [3] [6] [10] [11]) [] [100] >>= extractDataFromImage) =
      .error .InvalidHeader ∧
    (serializeContainer [] (sealData [1, 2] [5] [8] [9]) [100]
      (sealData [3] [6] [10] [11])).length ≤ 3 * 123 / 8 ∧
    ([5] : List Nat) ≠ [6] := by
  refine ⟨by decide, by decide, by decide⟩

/-- **C6**: `extractDataFromImage` reads the fields strictly in the fixed
order; with `L1, S1, L2, S2` the four parsed length fields, it fails with
`InvalidHeader` exactly when the first name-length field it parses is 0 or
above 2000 (real first, decoy only after all earlier reads succeed), fails
with `TruncatedData` exactly when an attempted field read would run past
the `3K` readable bits, and succeeds exactly when every check passes — in
which case the result is exactly the four read fields, nothing inferred or
defaulted. -/
theorem claim6_deserialize_outcomes (pixels : List Nat) (K : Nat)
    (hlen : pixels.length = 4 * K) (L1 S1 L2 S2 : Nat)
    (hL1 : L1 = bytesToInt (byteListAt pixels 0 2))
    (hS1 : S1 = bytesToInt (byteListAt pixels (16 + 8 * L1) 4))
    (hL2 : L2 = bytesToInt (byteListAt pixels (48 + 8 * L1) 2))
    (hS2 : S2 = bytesToInt (byteListAt pixels (64 + 8 * L1 + 8 * L2) 4)) :
    (extractDataFromImage pixels = .error .InvalidHeader ↔
      (16 ≤ 3 * K ∧ (L1 = 0 ∨ 2000 < L1)) ∨
      (16 ≤ 3 * K ∧ ¬(L1 = 0 ∨ 2000 < L1) ∧ 64 + 8 * L1 ≤ 3 * K ∧
        (L2 = 0 ∨ 2000 < L2))) ∧
    (extractDataFromImage pixels = .error .TruncatedData ↔
      3 * K < 16 ∨
      (¬(L1 = 0 ∨ 2000 < L1) ∧ 16 ≤ 3 * K ∧ 3 * K < 64 + 8 * L1) ∨
      (¬(L1 = 0 ∨ 2000 < L1) ∧ ¬(L2 = 0 ∨ 2000 < L2) ∧ 64 + 8 * L1 ≤ 3 * K ∧
        (3 * K < 96 + 8 * L1 + 8 * L2 ∨
         (S1 ≠ 0 ∧ 3 * K < 96 + 8 * L1 + 8 * L2 + 8 * S1) ∨
         (S2 ≠ 0 ∧ 3 * K < 96 + 8 * L1 + 8 * L2 + 8 * S1 + 8 * S2)))) ∧
    (∀ res, extractDataFromImage pixels = .ok res ↔
      (16 ≤ 3 * K ∧ ¬(L1 = 0 ∨ 2000 < L1) ∧ 64 + 8 * L1 ≤ 3 * K ∧
       ¬(L2 = 0 ∨ 2000 < L2) ∧ 96 + 8 * L1 + 8 * L2 ≤ 3 * K ∧
       (S1 = 0 ∨ 96 + 8 * L1 + 8 * L2 + 8 * S1 ≤ 3 * K) ∧
       (S2 = 0 ∨ 96 + 8 * L1 + 8 * L2 + 8 * S1 + 8 * S2 ≤ 3 * K) ∧
       res = ⟨byteListAt pixels 16 L1, byteListAt pixels (96 + 8 * L1 + 8 * L2) S1,
              byteListAt pixels (64 + 8 * L1) L2,
              byteListAt pixels (96 + 8 * L1 + 8 * L2 + 8 * S1) S2⟩)) := by
  have hex := extractBytes_eq pixels K hlen
  unfold extractDataFromImage
  by_cases hc1 : 16 ≤ 3 * K
  · rw [hex 2 0, if_pos (Or.inr (by omega)), exceptBind_ok, ← hL1]
    by_cases hv1 : L1 = 0 ∨ 2000 < L1
    · rw [if_pos hv1]
      refine ⟨iff_of_true rfl (Or.inl ⟨hc1, hv1⟩), iff_of_false (by simp) (by omega),
        fun res => iff_of_false (by simp) (fun h => (h.2.1 hv1).elim)⟩
    · rw [if_neg hv1]
      by_cases hc2 : 64 + 8 * L1 ≤ 3 * K
      · rw [hex L1 16, if_pos (Or.inr (by omega)), exceptBind_ok]
        rw [hex 4 (16 + 8 * L1), if_pos (Or.inr (by omega)), exceptBind_ok, ← hS1]
        rw [hex 2 (48 + 8 * L1), if_pos (Or.inr (by omega)), exceptBind_ok, ← hL2]
        by_cases hv2 : L2 = 0 ∨ 2000 < L2
        · rw [if_pos hv2]
          refine ⟨iff_of_true rfl (Or.inr ⟨hc1, hv1, hc2, hv2⟩),
            iff_of_false (by simp) (by omega),
            fun res => iff_of_false (by simp) (fun h => (h.2.2.2.1 hv2).elim)⟩
        · rw [if_neg hv2]
          by_cases hc3 : 96 + 8 * L1 + 8 * L2 ≤ 3 * K
          · rw [hex L2 (64 + 8 * L1), if_pos (Or.inr (by omega)), exceptBind_ok]
            rw [hex 4 (64 + 8 * L1 + 8 * L2), if_pos (Or.inr (by omega)), exceptBind_ok,
              ← hS2]
            by_cases hd1 : S1 = 0 ∨ 96 + 8 * L1 + 8 * L2 + 8 * S1 ≤ 3 * K
            · rw [hex S1 (96 + 8 * L1 + 8 * L2), if_pos hd1, exceptBind_ok]
              by_cases hd2 : S2 = 0 ∨ 96 + 8 * L1 + 8 * L2 + 8 * S1 + 8 * S2 ≤ 3 * K
              · rw [hex S2 (96 + 8 * L1 + 8 * L2 + 8 * S1), if_pos hd2, exceptBind_ok]
                refine ⟨iff_of_false (by simp) (by omega),
                  iff_of_false (by simp) (by omega), fun res => ?_⟩
                constructor
                · intro h
                  injection h with h'
                  exact ⟨hc1, hv1, hc2, hv2, hc3, hd1, hd2, h'.symm⟩
                · rintro ⟨-, -, -, -, -, -, -, rfl⟩
                  rfl
              · rw [hex S2 (96 + 8 * L1 + 8 * L2 + 8 * S1), if_neg hd2, exceptBind_err]
                refine ⟨iff_of_false (by simp) (by omega),
                  iff_of_true rfl (Or.inr (Or.inr ⟨hv1, hv2, hc2,
                    Or.inr (Or.inr (by omega))⟩)),
                  fun res => iff_of_false (by simp)
                    (fun h => (hd2 h.2.2.2.2.2.2.1).elim)⟩
            · rw [hex S1 (96 + 8 * L1 + 8 * L2), if_neg hd1, exceptBind_err]
              refine ⟨iff_of_false (by simp) (by omega),
                iff_of_true rfl (Or.inr (Or.inr ⟨hv1, hv2, hc2,
                  Or.inr (Or.inl (by omega))⟩)),
                fun res => iff_of_false (by simp) (fun h => (hd1 h.2.2.2.2.2.1).elim)⟩
          · by_cases hc3a : 64 + 8 * L1 + 8 * L2 ≤ 3 * K
            · rw [hex L2 (64 + 8 * L1), if_pos (Or.inr (by omega)), exceptBind_ok]
              rw [hex 4 (64 + 8 * L1 + 8 * L2), if_neg (by omega), exceptBind_err]
              refine ⟨iff_of_false (by simp) (by omega),
                iff_of_true rfl (Or.inr (Or.inr ⟨hv1, hv2, hc2, Or.inl (by omega)⟩)),
                fun res => iff_of_false (by simp) (fun h => absurd h.2.2.2.2.1 (by omega))⟩
            · rw [hex L2 (64 + 8 * L1), if_neg (by omega), exceptBind_err]
              refine ⟨iff_of_false (by simp) (by omega),
                iff_of_true rfl (Or.inr (Or.inr ⟨hv1, hv2, hc2, Or.inl (by omega)⟩)),
                fun res => iff_of_false (by simp) (fun h => absurd h.2.2.2.2.1 (by omega))⟩
      · by_cases hc2a : 16 + 8 * L1 ≤ 3 * K
        · by_cases hc2b : 48 + 8 * L1 ≤ 3 * K
          · rw [hex L1 16, if_pos (Or.inr (by omega)), exceptBind_ok]
            rw [hex 4 (16 + 8 * L1), if_pos (Or.inr (by omega)), exceptBind_ok]
            rw [hex 2 (48 + 8 * L1), if_neg (by omega), exceptBind_err]
            refine ⟨iff_of_false (by simp) (by omega),
              iff_of_true rfl (Or.inr (Or.inl ⟨hv1, hc1, by omega⟩)),
              fun res => iff_of_false (by simp) (fun h => absurd h.2.2.1 (by omega))⟩
          · rw [hex L1 16, if_pos (Or.inr (by omega)), exceptBind_ok]
            rw [hex 4 (16 + 8 * L1), if_neg (by omega), exceptBind_err]
            refine ⟨iff_of_false (by simp) (by omega),
              iff_of_true rfl (Or.inr (Or.inl ⟨hv1, hc1, by omega⟩)),
              fun res => iff_of_false (by simp) (fun h => absurd h.2.2.1 (by omega))⟩
        · rw [hex L1 16, if_neg (by omega), exceptBind_err]
          refine ⟨iff_of_false (by simp) (by omega),
            iff_of_true rfl (Or.inr (Or.inl ⟨hv1, hc1, by omega⟩)),
            fun res => iff_of_false (by simp) (fun h => absurd h.2.2.1 (by omega))⟩
  · rw [hex 2 0, if_neg (by omega), exceptBind_err]
    refine ⟨iff_of_false (by simp) (by omega), iff_of_true rfl (Or.inl (by omega)),
      fun res => iff_of_false (by simp) (fun h => absurd h.1 (by omega))⟩

theorem claim6_witness : extractDataFromImage (List.replicate 8 0) = .error .TruncatedData := by
  have h := claim6_deserialize_outcomes (List.replicate 8 0) 2 rfl 0 0 0 0
    (by decide) (by decide) (by decide) (by decide)
  exact h.2.1.mpr (Or.inl (by omega))

end TwinCipher
